import Mathlib

/-!
Verification of the rust-compress repository: a bit-packed vector (`bit_vec.rs`)
and static Huffman coding (`huffman.rs`).

Machine integers are modelled as `Nat`: every byte stored in a `BitVec` is built
by or-ing single bits below position 8 into a zero byte, so `u8` arithmetic never
wraps.  Symbol counts are `u128` in the source, and the merge loop adds them, so
count arithmetic is modelled three times: `mergeLoop` with unbounded naturals,
`mergeLoopW` with the release build's wrapping (mod `2^128`) semantics, and
`mergeLoopC` with the checked build's overflow panic (`none`); whenever the
total of the table fits in `u128` all three agree.  Panics
(`unwrap`, `assert!`, index out of bounds) are modelled with `Option` where a
claim depends on them, and are otherwise unreachable on the states the theorems
quantify over.  Rust iterators are modelled as explicit state machines whose
`next` returns `Option (value × state)`.
-/

namespace RC

/-- `const BITS: usize = 8` from `bit_vec.rs`. -/
def BITS : Nat := 8

/-- The single-bit read `(x >> i) & 1 == 1` performed by `Iter::next` and by
`split_rest` on a byte. -/
def bitRead (x i : Nat) : Bool :=
  ((x >>> i) &&& 1) == 1

/-- The `BitVec` struct of `bit_vec.rs`: a cursor `bit` (how many bits of the
last byte are occupied, `8` meaning "full / no partial byte") and the backing
byte buffer `data`. -/
structure BitVec where
  bit : Nat
  data : List Nat
deriving Repr, DecidableEq

/-- `BitVec::with_capacity`: the capacity is only an allocation hint
(`Vec::with_capacity` returns an empty vector), so the resulting value is the
empty bit vector with the cursor at `BITS`. -/
def BitVec.with_capacity (_capacity : Nat) : BitVec :=
  { bit := BITS, data := [] }

/-- `BitVec::new()`. -/
def BitVec.new : BitVec :=
  BitVec.with_capacity 0

/-- `BitVec::len`: `self.data.len() * BITS + self.bit as usize - BITS`. -/
def BitVec.len (v : BitVec) : Nat :=
  v.data.length * BITS + v.bit - BITS

/-- Helper modelling `self.data.last_mut().unwrap()` followed by a store: apply
`f` to the final element of the list.  The empty case is unreachable in `push`
(the cursor is `BITS` exactly when a fresh byte must be allocated first). -/
def modifyLast (f : Nat → Nat) : List Nat → List Nat
  | [] => []
  | [b] => [f b]
  | b :: c :: rest => b :: modifyLast f (c :: rest)

/-- `BitVec::push`: allocate a fresh zero byte when the cursor is full, or the
bit into the last byte at the cursor position (the source uses `^=`, which on a
bit known to be zero coincides with `|=`), and advance the cursor. -/
def BitVec.push (v : BitVec) (value : Bool) : BitVec :=
  let w := if v.bit = BITS then { bit := 0, data := v.data ++ [0] } else v
  { bit := w.bit + 1,
    data := if value then modifyLast (fun b => b ^^^ (1 <<< w.bit)) w.data else w.data }

/-- `BitVec::split_rest`.  In the partial-byte branch the source pops the final
byte, re-pushes its `bit` occupied bits into a fresh `BitVec`, and marks the
remaining buffer as byte-aligned (`bit = 8`).  `data.pop().unwrap()` cannot
panic there on reachable states (the buffer is nonempty whenever `bit ≠ 8`). -/
def BitVec.split_rest (v : BitVec) : BitVec × BitVec :=
  if v.bit = BITS then (v, BitVec.new)
  else
    let b := v.data.getLast?.getD 0
    let rest : BitVec := { bit := BITS, data := v.data.dropLast }
    let last := (List.range v.bit).foldl
      (fun acc i => acc.push (bitRead b i)) (BitVec.with_capacity 8)
    (rest, last)

/-- `BitVec::into_bytes`. -/
def BitVec.into_bytes (v : BitVec) : List Nat :=
  v.data

/-- The `Iter` struct of `bit_vec.rs` (the borrowed slice is copied into the
state). -/
structure Iter where
  pos : Nat
  last_bit : Nat
  bit : Nat
  data : List Nat
deriving Repr, DecidableEq

/-- `BitVec::iter`. -/
def BitVec.iter (v : BitVec) : Iter :=
  { pos := 0, last_bit := v.bit, bit := 0, data := v.data }

/-- The cursor normalization at the top of `Iter::next`: when the current byte
is exhausted (`bit == BITS`), or the occupied part of the final byte is
(`pos + 1 == data.len() && bit == last_bit`), move to the start of the next
byte. -/
def Iter.norm (it : Iter) : Iter :=
  if it.bit = BITS ∨ (it.pos + 1 = it.data.length ∧ it.bit = it.last_bit) then
    { it with bit := 0, pos := it.pos + 1 }
  else it

/-- `Iterator::next for Iter`: functional form returning the yielded bit and
the successor state.  `self.data[self.pos]` is read with a default of `0`; on
every state reachable from `BitVec::iter` the position check has already ruled
the out-of-bounds access out. -/
def Iter.next (it0 : Iter) : Option (Bool × Iter) :=
  let it := it0.norm
  if it.pos = it.data.length then none
  else
    some (bitRead (it.data.getD it.pos 0) it.bit, { it with bit := it.bit + 1 })

/-- Run an iterator, collecting at most `fuel` yielded elements.  One unit of
fuel is spent per yielded bit, so any `fuel ≥ len` collects the whole
sequence. -/
def Iter.collect : Iter → Nat → List Bool
  | _, 0 => []
  | it, fuel + 1 =>
    match it.next with
    | none => []
    | some (b, it') => b :: it'.collect fuel

/-- `impl From<Vec<bool>> for BitVec` (and the identical `&[bool]` instance):
push every bit in order into a fresh vector. -/
def BitVec.ofList (bits : List Bool) : BitVec :=
  bits.foldl BitVec.push (BitVec.with_capacity bits.length)

/-- The bit stream of a `BitVec`: its iterator run to exhaustion. -/
def BitVec.stream (v : BitVec) : List Bool :=
  v.iter.collect v.len

end RC

namespace RC

/-- The `Node` struct of `huffman.rs`: a count, an optional symbol id (present
exactly on leaves of constructed trees) and optional children. -/
inductive Node where
  | mk (count : Nat) (value : Option Nat) (left : Option Node) (right : Option Node)
deriving Repr

/-- Field accessor `node.count`. -/
def Node.count : Node → Nat
  | .mk c _ _ _ => c

/-- The `DecoderNode` enum of `huffman.rs`. -/
inductive DecoderNode where
  | Jump (target : Nat)
  | Value (value : Nat)
deriving Repr, DecidableEq

/-- `Node::make_encoder`: walk the tree, keeping the path taken in `current`
(`true` pushed when descending left, `false` when descending right — the source
mutates `current` with push/pop around each recursive call, which is the same
as passing `current ++ [bit]` down), and store the completed path at a leaf as
`map[value] = current.as_slice().into()`.  The indexing panic for
`value ≥ map.len()` cannot fire on trees built by `HuffmanTree::new` with a map
of `elements` entries; `List.set` out of range is a no-op. -/
def Node.make_encoder : Node → List BitVec → List Bool → List BitVec
  | .mk _ (some value) _ _, map, current => map.set value (BitVec.ofList current)
  | .mk _ none l r, map, current =>
    let map1 :=
      match l with
      | some child => child.make_encoder map (current ++ [true])
      | none => map
    match r with
    | some child => child.make_encoder map1 (current ++ [false])
    | none => map1

/-- `Node::make_decoder`: preorder emission.  An internal node reserves a
`Jump 0` slot, emits the left subtree, patches the slot with the index where
the right subtree will begin (`map.len()` at that moment), then emits the
right subtree; a leaf emits `Value value`. -/
def Node.make_decoder : Node → List DecoderNode → List DecoderNode
  | .mk _ (some value) _ _, map => map ++ [.Value value]
  | .mk _ none l r, map =>
    let idx := map.length
    let map1 := map ++ [.Jump 0]
    let map2 :=
      match l with
      | some child => child.make_decoder map1
      | none => map1
    let map3 := map2.set idx (.Jump map2.length)
    match r with
    | some child => child.make_decoder map3
    | none => map3

/-- The `HuffmanTree` struct. -/
structure HuffmanTree where
  elements : Nat
  nodes : Node

/-- Models `BinaryHeap::pop` through the reversed `Ord` on `Node` (the source
reverses the comparison so that the max-heap pops the node with the *minimum*
count): returns an element of minimal count together with the remaining
elements.  `BinaryHeap` leaves the order among equal-count elements
unspecified; this model takes the first minimal element.  Every theorem below
that depends on the heap only uses that the popped count is minimal, so any
conforming tie-break satisfies them. -/
def extractMin : List Node → Option (Node × List Node)
  | [] => none
  | n :: rest =>
    match extractMin rest with
    | none => some (n, rest)
    | some (k, rest') => if n.count ≤ k.count then some (n, rest) else some (k, n :: rest')

/-- The `while heap.len() > 1` merge loop of `HuffmanTree::new`: pop the two
minimum nodes, push an internal node holding their sum (first popped becomes
the left child).  `fuel` bounds the number of iterations; each iteration
shrinks the heap by one, so any `fuel ≥ heap.length` runs the loop to
completion. -/
def mergeLoop : Nat → List Node → List Node
  | 0, heap => heap
  | fuel + 1, heap =>
    if heap.length ≤ 1 then heap
    else
      match extractMin heap with
      | none => heap
      | some (left, h1) =>
        match extractMin h1 with
        | none => heap
        | some (right, h2) =>
          mergeLoop fuel
            (h2 ++ [Node.mk (left.count + right.count) none (some left) (some right)])

/-- `HuffmanTree::new`: `assert!(counts.len() > 1)` is modelled by returning
`none` on violation; otherwise one leaf per `(value, count)` pair of
`counts.iter().enumerate()` seeds the heap, the merge loop runs, and the last
remaining node (`heap.pop().unwrap()`) becomes the root. -/
def HuffmanTree.new (counts : List Nat) : Option HuffmanTree :=
  if 1 < counts.length then
    (mergeLoop counts.length
        (counts.enum.map fun p => Node.mk p.2 (some p.1) none none)).head?.map
      fun root => { elements := counts.length, nodes := root }
  else none

/-- The `HuffmanEncoder` struct. -/
structure HuffmanEncoder where
  map : List BitVec

/-- `HuffmanTree::encoder`: a map of `elements` fresh `BitVec`s filled in by
`make_encoder` starting from the root with an empty path. -/
def HuffmanTree.encoder (t : HuffmanTree) : HuffmanEncoder :=
  { map := t.nodes.make_encoder (List.replicate t.elements BitVec.new) [] }

/-- `HuffmanEncoder::encode`: `self.map.get(value).unwrap()`; the panic on an
out-of-range symbol id is modelled by `none`. -/
def HuffmanEncoder.encode (e : HuffmanEncoder) (value : Nat) : Option BitVec :=
  e.map[value]?

/-- The `HuffmanDecoder` struct. -/
structure HuffmanDecoder where
  map : List DecoderNode

/-- `HuffmanTree::decoder`. -/
def HuffmanTree.decoder (t : HuffmanTree) : HuffmanDecoder :=
  { map := t.nodes.make_decoder [] }

/-- The body of `HuffmanDecoder::decode`: the state is the current table index;
a `Jump right` slot consumes one bit (`true` steps to `idx + 1`, `false` jumps
to `right`), a `Value` slot returns the symbol together with the rest of the
input (the position the mutated Rust iterator has reached).  `none` models the
panics (table index out of bounds, `input.next().unwrap()` on an exhausted
source) and, via the fuel, divergence; on tables produced by
`HuffmanTree::decoder` the index strictly increases, so `map.length` steps
always suffice. -/
def decodeGo (map : List DecoderNode) : Nat → Nat → List Bool → Option (Nat × List Bool)
  | 0, _, _ => none
  | fuel + 1, idx, input =>
    match map[idx]? with
    | none => none
    | some (.Value value) => some (value, input)
    | some (.Jump right) =>
      match input with
      | [] => none
      | b :: input' => decodeGo map fuel (if b then idx + 1 else right) input'

/-- `HuffmanDecoder::decode`. -/
def HuffmanDecoder.decode (d : HuffmanDecoder) (input : List Bool) :
    Option (Nat × List Bool) :=
  decodeGo d.map d.map.length 0 input

end RC

namespace RC

/-! ## Specification apparatus for `BitVec` -/

/-- Bits of byte `x` at positions `lo, lo+1, …, hi-1`, least significant
first. -/
def byteBits (x lo hi : Nat) : List Bool :=
  (List.range (hi - lo)).map fun i => bitRead x (lo + i)

/-- The bits an iterator state still has to produce: everything from position
`bit` of the first listed byte on, where only `lastBit` bits of the final byte
count. -/
def remFrom : List Nat → Nat → Nat → List Bool
  | [], _, _ => []
  | [x], lastBit, bit => byteBits x bit lastBit
  | x :: y :: rest, lastBit, bit => byteBits x bit 8 ++ remFrom (y :: rest) lastBit 0

/-- The cursor value of a bit vector holding `n` bits. -/
def bitLen (n : Nat) : Nat :=
  if n = 0 then 8 else (n - 1) % 8 + 1

/-- `v` is the packed representation of the bit list `bs`: the cursor and
buffer size are determined by `bs.length`, the unused high bits of the final
byte are zero, and reading the buffer back yields `bs`. -/
def Models (v : BitVec) (bs : List Bool) : Prop :=
  v.bit = bitLen bs.length ∧
  v.data.length = (bs.length + 7) / 8 ∧
  v.data.getLast?.getD 0 < 2 ^ v.bit ∧
  remFrom v.data v.bit 0 = bs

/-! ## Specification apparatus for the Huffman coder -/

/-- Trees `HuffmanTree::new counts` can build: a leaf carries symbol `v` with
count `counts[v]` and no children; an internal node carries no symbol, two
children, and the sum of their counts. -/
inductive WFC (counts : List Nat) : Node → Prop where
  | leaf (v : Nat) : WFC counts (.mk (counts.getD v 0) (some v) none none)
  | node {l r : Node} : WFC counts l → WFC counts r →
      WFC counts (.mk (l.count + r.count) none (some l) (some r))

/-- Number of decoder slots a subtree emits (= its number of nodes, with the
same `value`-driven branching as `make_decoder`). -/
def Node.dsize : Node → Nat
  | .mk _ (some _) _ _ => 1
  | .mk _ none l r =>
    1 + (match l with | some t => t.dsize | none => 0)
      + (match r with | some t => t.dsize | none => 0)

/-- Symbol/path pairs in the order `make_encoder` visits the leaves: `true`
for a left edge, `false` for a right edge. -/
def Node.paths : Node → List (Nat × List Bool)
  | .mk _ (some v) _ _ => [(v, [])]
  | .mk _ none l r =>
    (match l with | some t => t.paths | none => []).map
        (fun (p : Nat × List Bool) => (p.1, true :: p.2))
      ++ (match r with | some t => t.paths | none => []).map
        (fun (p : Nat × List Bool) => (p.1, false :: p.2))

/-- The flattened decoder table a subtree emits when its first slot sits at
absolute index `base`. -/
def Node.flatAt : Node → Nat → List DecoderNode
  | .mk _ (some v) _ _, _ => [.Value v]
  | .mk _ none l r, base =>
    .Jump (base + 1 + (match l with | some t => t.dsize | none => 0))
      :: ((match l with | some t => t.flatAt (base + 1) | none => [])
        ++ (match r with
            | some t => t.flatAt (base + 1 + (match l with | some u => u.dsize | none => 0))
            | none => []))

/-- Sum of the counts stored at internal nodes; for trees built by the merge
loop this equals the weighted external path length `Σ count(leaf) · depth`. -/
def Node.internalSum : Node → Nat
  | .mk _ (some _) _ _ => 0
  | .mk c none l r =>
    c + (match l with | some t => t.internalSum | none => 0)
      + (match r with | some t => t.internalSum | none => 0)

/-- The effect of `make_encoder` on the codeword map, path list form: set
entry `p.1` to the bit vector of `cur ++ p.2`, in visit order. -/
def applyPaths (map : List BitVec) (ps : List (Nat × List Bool)) (cur : List Bool) :
    List BitVec :=
  ps.foldl (fun m p => m.set p.1 (BitVec.ofList (cur ++ p.2))) map

/-- `p` is a prefix of `q`. -/
def Starts (p q : List Bool) : Prop :=
  ∃ tl, p ++ tl = q

/-- The Kraft sum `Σ 2^(-l)` of a list of codeword lengths, as a rational. -/
def kraftSum (ls : List Nat) : ℚ :=
  (ls.map fun l => ((1 : ℚ) / 2) ^ l).sum

/-- Repeatedly invoke `HuffmanDecoder::decode` on one bit source, collecting
`k` symbols (the Rust caller repeatedly passes the same mutable iterator; here
the leftover input is threaded explicitly). -/
def decodeMany (d : HuffmanDecoder) : Nat → List Bool → Option (List Nat)
  | 0, _ => some []
  | k + 1, input =>
    match d.decode input with
    | none => none
    | some (v, input') => (decodeMany d k input').map (fun vs => v :: vs)

/-- Total cost `Σ weight · length` of a list of (weight, length) pairs. -/
def costP (p : List (Nat × Nat)) : Nat :=
  (p.map (fun q => q.1 * q.2)).sum

/-- Kraft sum scaled by `2^M`: `Σ 2^(M - l)`. -/
def kraftN (M : Nat) (ls : List Nat) : Nat :=
  (ls.map (fun l => 2 ^ (M - l))).sum

/-- The largest length in a list. -/
def maxLen (ls : List Nat) : Nat :=
  ls.foldr max 0

/-- The `u128` modulus.  The source stores counts in a `u128`, so the merge
addition `left.count + right.count` is arithmetic modulo `2^128` in a release
build (wrapping) and a panic on overflow in a checked build. -/
def U128 : Nat := 2 ^ 128

/-- The merge loop of `HuffmanTree::new` under release (wrapping) `u128`
semantics: the merged count is reduced modulo `2^128`.  Otherwise identical
to `mergeLoop`. -/
def mergeLoopW : Nat → List Node → List Node
  | 0, heap => heap
  | fuel + 1, heap =>
    if heap.length ≤ 1 then heap
    else
      match extractMin heap with
      | none => heap
      | some (left, h1) =>
        match extractMin h1 with
        | none => heap
        | some (right, h2) =>
          mergeLoopW fuel
            (h2 ++ [Node.mk ((left.count + right.count) % U128) none (some left)
              (some right)])

/-- `HuffmanTree::new` under wrapping `u128` count arithmetic. -/
def HuffmanTree.newW (counts : List Nat) : Option HuffmanTree :=
  if 1 < counts.length then
    (mergeLoopW counts.length
        (counts.enum.map fun p => Node.mk p.2 (some p.1) none none)).head?.map
      fun root => { elements := counts.length, nodes := root }
  else none

/-- The merge loop of `HuffmanTree::new` under checked (debug) `u128`
semantics: an overflowing merge addition panics, modelled by `none`. -/
def mergeLoopC : Nat → List Node → Option (List Node)
  | 0, heap => some heap
  | fuel + 1, heap =>
    if heap.length ≤ 1 then some heap
    else
      match extractMin heap with
      | none => some heap
      | some (left, h1) =>
        match extractMin h1 with
        | none => some heap
        | some (right, h2) =>
          if left.count + right.count < U128 then
            mergeLoopC fuel
              (h2 ++ [Node.mk (left.count + right.count) none (some left)
                (some right)])
          else none

/-- `HuffmanTree::new` under checked `u128` count arithmetic: `none` on a
violated length assertion or on an overflow panic. -/
def HuffmanTree.newC (counts : List Nat) : Option HuffmanTree :=
  if 1 < counts.length then
    match mergeLoopC counts.length
        (counts.enum.map fun p => Node.mk p.2 (some p.1) none none) with
    | none => none
    | some heap => heap.head?.map fun root => { elements := counts.length, nodes := root }
  else none

lemma bitRead_eq_testBit (x i : Nat) : bitRead x i = x.testBit i := by
  rw [Nat.testBit_to_div_mod]
  by_cases h : x / 2 ^ i % 2 = 1 <;>
    simp [bitRead, Nat.and_one_is_mod, Nat.shiftRight_eq_div_pow, h]

lemma bitRead_xor_shiftLeft_self (x r : Nat) (h : x < 2 ^ r) :
    bitRead (x ^^^ (1 <<< r)) r = true := by
  rw [bitRead_eq_testBit]
  simp [Nat.testBit_lt_two_pow h]

lemma bitRead_xor_shiftLeft_ne (x r i : Nat) (h : i ≠ r) :
    bitRead (x ^^^ (1 <<< r)) i = bitRead x i := by
  rw [bitRead_eq_testBit, bitRead_eq_testBit]
  rcases Nat.lt_or_ge i r with hlt | hge
  · simp [Nat.not_le.mpr hlt]
  · have h1 : Nat.testBit 1 (i - r) = false := by
      rw [Nat.testBit_to_div_mod]
      have h2 : (1 : Nat) / 2 ^ (i - r) = 0 := by
        apply Nat.div_eq_of_lt
        have : 2 ^ 1 ≤ 2 ^ (i - r) := Nat.pow_le_pow_right (by norm_num) (by omega)
        omega
      simp [h2]
    simp [h1]

lemma bitRead_lt_two_pow (x i : Nat) (h : x < 2 ^ i) : bitRead x i = false := by
  rw [bitRead_eq_testBit]
  exact Nat.testBit_lt_two_pow h

lemma byteBits_self (x lo : Nat) : byteBits x lo lo = [] := by
  simp [byteBits]

lemma byteBits_length (x lo hi : Nat) : (byteBits x lo hi).length = hi - lo := by
  simp [byteBits]

lemma byteBits_cons (x : Nat) {lo hi : Nat} (h : lo < hi) :
    byteBits x lo hi = bitRead x lo :: byteBits x (lo + 1) hi := by
  unfold byteBits
  obtain ⟨k, hk⟩ : ∃ k, hi - lo = k + 1 := ⟨hi - lo - 1, by omega⟩
  rw [hk, List.range_succ_eq_map]
  have : hi - (lo + 1) = k := by omega
  rw [this]
  simp [List.map_map, Function.comp_def, Nat.add_comm, Nat.add_assoc, Nat.add_left_comm]

lemma byteBits_snoc (x : Nat) {lo hi : Nat} (h : lo ≤ hi) :
    byteBits x lo (hi + 1) = byteBits x lo hi ++ [bitRead x hi] := by
  unfold byteBits
  have h1 : hi + 1 - lo = (hi - lo) + 1 := by omega
  rw [h1, List.range_succ]
  simp
  congr 1
  omega

end RC

namespace RC

lemma remFrom_single_cons (x : Nat) {lb bit : Nat} (h : bit < lb) :
    remFrom [x] lb bit = bitRead x bit :: remFrom [x] lb (bit + 1) := by
  simp [remFrom, byteBits_cons x h]

lemma remFrom_multi_cons (x y : Nat) (rest : List Nat) {lb bit : Nat} (h : bit < 8) :
    remFrom (x :: y :: rest) lb bit
      = bitRead x bit :: remFrom (x :: y :: rest) lb (bit + 1) := by
  simp [remFrom, byteBits_cons x h]

lemma remFrom_multi_eight (x y : Nat) (rest : List Nat) (lb : Nat) :
    remFrom (x :: y :: rest) lb 8 = remFrom (y :: rest) lb 0 := by
  simp [remFrom, byteBits_self]

lemma remFrom_append : ∀ (init : List Nat) (c lb bit : Nat), init ≠ [] →
    remFrom (init ++ [c]) lb bit = remFrom init 8 bit ++ byteBits c 0 lb
  | [], _, _, _, h => absurd rfl h
  | [x], c, lb, bit, _ => by simp [remFrom]
  | x :: y :: init', c, lb, bit, _ => by
    have ih := remFrom_append (y :: init') c lb 0 (by simp)
    have e1 : remFrom ((x :: y :: init') ++ [c]) lb bit
        = byteBits x bit 8 ++ remFrom ((y :: init') ++ [c]) lb 0 := rfl
    have e2 : remFrom (x :: y :: init') 8 bit
        = byteBits x bit 8 ++ remFrom (y :: init') 8 0 := rfl
    rw [e1, ih, e2, List.append_assoc]

lemma remFrom_length : ∀ (l : List Nat) (lb bit : Nat), l ≠ [] → lb ≤ 8 → bit ≤ 8 →
    (l.length = 1 → bit ≤ lb) → (remFrom l lb bit).length + bit = 8 * (l.length - 1) + lb
  | [], _, _, h, _, _, _ => absurd rfl h
  | [x], lb, bit, _, _, _, hs => by
    have := hs rfl
    simp [remFrom, byteBits_length]
    omega
  | x :: y :: rest, lb, bit, _, hlb, hbit, _ => by
    have ih := remFrom_length (y :: rest) lb 0 (by simp) hlb (by omega) (by intro h1; omega)
    simp only [remFrom, List.length_append, List.length_cons, byteBits_length] at ih ⊢
    omega

lemma modifyLast_append (f : Nat → Nat) : ∀ (init : List Nat) (x : Nat),
    modifyLast f (init ++ [x]) = init ++ [f x]
  | [], _ => rfl
  | [_], _ => rfl
  | y :: z :: init', x => by
    have ih := modifyLast_append f (z :: init') x
    show y :: modifyLast f ((z :: init') ++ [x]) = (y :: z :: init') ++ [f x]
    rw [ih]
    rfl

lemma byteBits_xor_high (x r : Nat) : byteBits (x ^^^ (1 <<< r)) 0 r = byteBits x 0 r := by
  unfold byteBits
  apply List.map_congr_left
  intro i hi
  have : i < r := List.mem_range.mp hi
  exact bitRead_xor_shiftLeft_ne x r (0 + i) (by omega)

lemma bitLen_pos (n : Nat) : 1 ≤ bitLen n := by
  unfold bitLen
  split <;> omega

lemma bitLen_le_eight (n : Nat) : bitLen n ≤ 8 := by
  unfold bitLen
  split <;> omega

lemma bitLen_eq_eight_iff (n : Nat) : bitLen n = 8 ↔ n % 8 = 0 := by
  unfold bitLen
  split <;> omega

lemma bitLen_eq_mod (n : Nat) (h : n % 8 ≠ 0) : bitLen n = n % 8 := by
  unfold bitLen
  split <;> omega

lemma bitLen_succ (n : Nat) : bitLen (n + 1) = n % 8 + 1 := by
  unfold bitLen
  split <;> omega

lemma push_eq_full {v : BitVec} (h : v.bit = BITS) (b : Bool) :
    v.push b = { bit := 1, data := v.data ++ [if b then 1 else 0] } := by
  simp only [BitVec.push, if_pos h]
  cases b
  · simp
  · simp [modifyLast_append]

lemma push_partial_eq {v : BitVec} (h : v.bit ≠ BITS) (b : Bool) :
    v.push b =
      { bit := v.bit + 1,
        data := if b then modifyLast (fun x => x ^^^ (1 <<< v.bit)) v.data else v.data } := by
  simp only [BitVec.push, if_neg h]

/-- Pushing one bit extends the modelled bit list by that bit. -/
lemma Models.push {v : BitVec} {bs : List Bool} (hm : Models v bs) (b : Bool) :
    Models (v.push b) (bs ++ [b]) := by
  obtain ⟨h1, h2, h3, h4⟩ := hm
  by_cases h8 : v.bit = BITS
  · have hmod : bs.length % 8 = 0 := by
      rw [← bitLen_eq_eight_iff, ← h1]
      exact h8
    rw [push_eq_full h8 b]
    refine ⟨?_, ?_, ?_, ?_⟩
    · show 1 = bitLen (bs ++ [b]).length
      rw [List.length_append, List.length_singleton, bitLen_succ]
      omega
    · show (v.data ++ [if b then 1 else 0]).length = ((bs ++ [b]).length + 7) / 8
      rw [List.length_append, List.length_append, List.length_singleton,
        List.length_singleton, h2]
      omega
    · show (v.data ++ [if b then 1 else 0]).getLast?.getD 0 < 2 ^ 1
      rw [List.getLast?_append_cons]
      cases b <;> decide
    · show remFrom (v.data ++ [if b then 1 else 0]) 1 0 = bs ++ [b]
      have hlastbits : byteBits (if b then 1 else 0) 0 1 = [b] := by
        cases b <;> decide
      rcases List.eq_nil_or_concat v.data with hnil | ⟨init, w, hvw⟩
      · have hb0 : bs = [] := by
          apply List.length_eq_zero.mp
          rw [hnil] at h2
          simp at h2
          omega
        rw [hnil, hb0]
        have : remFrom [if b then 1 else 0] 1 0 = byteBits (if b then 1 else 0) 0 1 := rfl
        rw [List.nil_append, this, hlastbits]
        rfl
      · have hvd : v.data ≠ [] := by simp [hvw]
        rw [remFrom_append v.data _ _ _ hvd, hlastbits]
        have h9 : bitLen bs.length = 8 := (bitLen_eq_eight_iff bs.length).mpr hmod
        rw [h1, h9] at h4
        rw [h4]
  · have hn0 : bs.length % 8 ≠ 0 := by
      intro hc
      apply h8
      show v.bit = BITS
      have h9 : bitLen bs.length = 8 := (bitLen_eq_eight_iff bs.length).mpr hc
      rw [h1, h9]
      rfl
    have hvb : v.bit = bs.length % 8 := by
      rw [h1, bitLen_eq_mod _ hn0]
    have hvb7 : 1 ≤ v.bit ∧ v.bit ≤ 7 := by
      constructor
      · rw [h1]; exact bitLen_pos _
      · have := bitLen_le_eight bs.length
        rw [← h1] at this
        simp only [BITS] at h8
        omega
    have hvd : v.data ≠ [] := by
      intro h
      rw [h] at h2
      simp at h2
      omega
    obtain ⟨init, w, hvw⟩ := (List.eq_nil_or_concat v.data).resolve_left hvd
    rw [List.concat_eq_append] at hvw
    have hw : w < 2 ^ v.bit := by
      rw [hvw, List.getLast?_append_cons] at h3
      simpa using h3
    rw [push_partial_eq h8 b]
    have hdata : (if b then modifyLast (fun x => x ^^^ 1 <<< v.bit) v.data else v.data)
        = init ++ [if b then w ^^^ 1 <<< v.bit else w] := by
      rw [hvw]
      cases b <;> simp [modifyLast_append]
    have hw' : (if b then w ^^^ 1 <<< v.bit else w) < 2 ^ (v.bit + 1) := by
      have hp : (2 : Nat) ^ v.bit < 2 ^ (v.bit + 1) :=
        Nat.pow_lt_pow_right (by norm_num) (by omega)
      cases b
      · simpa using lt_trans hw hp
      · simp only [if_pos rfl]
        apply Nat.xor_lt_two_pow (lt_trans hw hp)
        rw [Nat.shiftLeft_eq]
        simpa using hp
    have hbits : byteBits (if b then w ^^^ 1 <<< v.bit else w) 0 (v.bit + 1)
        = byteBits w 0 v.bit ++ [b] := by
      cases b
      · rw [if_neg Bool.false_ne_true, byteBits_snoc _ (Nat.zero_le v.bit),
          bitRead_lt_two_pow w v.bit hw]
      · rw [if_pos rfl, byteBits_snoc _ (Nat.zero_le v.bit), byteBits_xor_high w v.bit,
          bitRead_xor_shiftLeft_self w v.bit hw]
    refine ⟨?_, ?_, ?_, ?_⟩
    · show v.bit + 1 = bitLen (bs ++ [b]).length
      rw [List.length_append, List.length_singleton, bitLen_succ, hvb]
    · show (if b then modifyLast (fun x => x ^^^ 1 <<< v.bit) v.data else v.data).length
          = ((bs ++ [b]).length + 7) / 8
      rw [hdata, List.length_append, List.length_singleton, List.length_append,
        List.length_singleton]
      have : init.length + 1 = (bs.length + 7) / 8 := by
        rw [← h2, hvw]
        simp
      omega
    · show (if b then modifyLast (fun x => x ^^^ 1 <<< v.bit) v.data else v.data).getLast?.getD 0
          < 2 ^ (v.bit + 1)
      rw [hdata, List.getLast?_append_cons]
      simpa using hw'
    · show remFrom (if b then modifyLast (fun x => x ^^^ 1 <<< v.bit) v.data else v.data)
          (v.bit + 1) 0 = bs ++ [b]
      rw [hdata]
      rcases List.eq_nil_or_concat init with hnil | ⟨init', w', hvw'⟩
      · rw [hnil]
        rw [hvw, hnil] at h4
        have e1 : remFrom [if b then w ^^^ 1 <<< v.bit else w] (v.bit + 1) 0
            = byteBits (if b then w ^^^ 1 <<< v.bit else w) 0 (v.bit + 1) := rfl
        have e2 : remFrom [w] v.bit 0 = byteBits w 0 v.bit := rfl
        rw [List.nil_append] at h4
        rw [e2] at h4
        rw [List.nil_append, e1, hbits, h4]
      · have hinit : init ≠ [] := by simp [hvw']
        rw [hvw, remFrom_append init _ _ _ hinit] at h4
        rw [remFrom_append init _ _ _ hinit, hbits, ← List.append_assoc, h4]
end RC

namespace RC

/-- Building a `BitVec` from a bit list produces its packed representation. -/
lemma models_ofList (bs : List Bool) : Models (BitVec.ofList bs) bs := by
  induction bs using List.reverseRecOn with
  | nil => exact ⟨rfl, rfl, by decide, rfl⟩
  | append_singleton bs b ih =>
    have e : BitVec.ofList (bs ++ [b]) = (BitVec.ofList bs).push b := by
      simp [BitVec.ofList, BitVec.with_capacity]
    rw [e]
    exact ih.push b

lemma Models.len_eq {v : BitVec} {bs : List Bool} (hm : Models v bs) : v.len = bs.length := by
  obtain ⟨h1, h2, _, _⟩ := hm
  show v.data.length * BITS + v.bit - BITS = bs.length
  rw [h1, h2]
  show (bs.length + 7) / 8 * 8 + bitLen bs.length - 8 = bs.length
  unfold bitLen
  split <;> omega

lemma drop_cons_getD {data : List Nat} {pos : Nat} (h : pos < data.length) :
    data.drop pos = data.getD pos 0 :: data.drop (pos + 1) := by
  rw [List.drop_eq_getElem_cons h, List.getD_eq_getElem?_getD, List.getElem?_eq_getElem h]
  rfl

lemma next_stop {data : List Nat} {lastBit pos bit : Nat}
    (hcond : bit = BITS ∨ (pos + 1 = data.length ∧ bit = lastBit))
    (hend : pos + 1 = data.length) :
    Iter.next ⟨pos, lastBit, bit, data⟩ = none := by
  have hnorm : Iter.norm ⟨pos, lastBit, bit, data⟩ = ⟨pos + 1, lastBit, 0, data⟩ := by
    unfold Iter.norm
    exact if_pos hcond
  simp only [Iter.next, hnorm]
  exact if_pos hend

lemma next_yield {data : List Nat} {lastBit pos bit : Nat}
    (hcond : ¬(bit = BITS ∨ (pos + 1 = data.length ∧ bit = lastBit)))
    (hpos : pos ≠ data.length) :
    Iter.next ⟨pos, lastBit, bit, data⟩
      = some (bitRead (data.getD pos 0) bit, ⟨pos, lastBit, bit + 1, data⟩) := by
  have hnorm : Iter.norm ⟨pos, lastBit, bit, data⟩ = ⟨pos, lastBit, bit, data⟩ := by
    unfold Iter.norm
    exact if_neg hcond
  simp only [Iter.next, hnorm]
  exact if_neg hpos

lemma next_yield_reset {data : List Nat} {lastBit pos bit : Nat}
    (hcond : bit = BITS ∨ (pos + 1 = data.length ∧ bit = lastBit))
    (hpos : pos + 1 ≠ data.length) :
    Iter.next ⟨pos, lastBit, bit, data⟩
      = some (bitRead (data.getD (pos + 1) 0) 0, ⟨pos + 1, lastBit, 1, data⟩) := by
  have hnorm : Iter.norm ⟨pos, lastBit, bit, data⟩ = ⟨pos + 1, lastBit, 0, data⟩ := by
    unfold Iter.norm
    exact if_pos hcond
  simp only [Iter.next, hnorm]
  exact if_neg hpos

lemma collect_succ_none {it : Iter} {fuel : Nat} (h : it.next = none) :
    it.collect (fuel + 1) = [] := by
  show (match it.next with
    | none => []
    | some (b, it') => b :: it'.collect fuel) = []
  rw [h]

lemma collect_succ_some {it it' : Iter} {b : Bool} {fuel : Nat}
    (h : it.next = some (b, it')) :
    it.collect (fuel + 1) = b :: it'.collect fuel := by
  show (match it.next with
    | none => []
    | some (b, it') => b :: it'.collect fuel) = b :: it'.collect fuel
  rw [h]

/-- The iterator run from state `⟨pos, lastBit, bit, data⟩` yields exactly the
remaining bits, given enough fuel. -/
lemma collect_spec : ∀ (fuel : Nat) (data : List Nat) (lastBit pos bit : Nat),
    pos < data.length → bit ≤ 8 → 1 ≤ lastBit → lastBit ≤ 8 →
    (pos + 1 = data.length → bit ≤ lastBit) →
    (remFrom (data.drop pos) lastBit bit).length ≤ fuel →
    Iter.collect ⟨pos, lastBit, bit, data⟩ fuel = remFrom (data.drop pos) lastBit bit := by
  intro fuel
  induction fuel with
  | zero =>
    intro data lastBit pos bit _ _ _ _ _ hfuel
    have h0 : remFrom (data.drop pos) lastBit bit = [] :=
      List.length_eq_zero.mp (by omega)
    rw [h0]
    rfl
  | succ fuel ih =>
    intro data lastBit pos bit hpos hbit hlb1 hlb8 hlast hfuel
    by_cases hp1 : pos + 1 = data.length
    · have hdrop : data.drop pos = [data.getD pos 0] := by
        rw [drop_cons_getD hpos, List.drop_of_length_le (by omega)]
      by_cases heq : bit = lastBit
      · have hnone := @next_stop data lastBit pos bit (Or.inr ⟨hp1, heq⟩) hp1
        simp only [Iter.collect, hnone]
        rw [hdrop]
        subst heq
        simp [remFrom, byteBits_self]
      · have hblt : bit < lastBit := by
          have := hlast hp1
          omega
        have hcond : ¬(bit = BITS ∨ (pos + 1 = data.length ∧ bit = lastBit)) := by
          rintro (hc | ⟨_, hc⟩)
          · have : bit = 8 := hc
            omega
          · exact heq hc
        have hyield := @next_yield data lastBit pos bit hcond (by omega)
        rw [collect_succ_some hyield]
        have hf' : (remFrom (data.drop pos) lastBit (bit + 1)).length ≤ fuel := by
          rw [hdrop] at hfuel ⊢
          rw [remFrom_single_cons _ hblt] at hfuel
          simp only [List.length_cons] at hfuel
          omega
        rw [hdrop, remFrom_single_cons _ hblt]
        congr 1
        rw [ih data lastBit pos (bit + 1) hpos (by omega) hlb1 hlb8
          (fun _ => by omega) hf', hdrop]
    · have hp1' : pos + 1 < data.length := by omega
      have hdrop : data.drop pos = data.getD pos 0 :: data.drop (pos + 1) :=
        drop_cons_getD hpos
      have hdrop2 : data.drop (pos + 1) = data.getD (pos + 1) 0 :: data.drop (pos + 2) :=
        drop_cons_getD hp1'
      have estep : remFrom (data.drop (pos + 1)) lastBit 0
          = bitRead (data.getD (pos + 1) 0) 0 :: remFrom (data.drop (pos + 1)) lastBit 1 := by
        by_cases hq : pos + 2 = data.length
        · have : data.drop (pos + 1) = [data.getD (pos + 1) 0] := by
            rw [hdrop2, List.drop_of_length_le (by omega)]
          rw [this, remFrom_single_cons _ hlb1]
        · have hq' : pos + 2 < data.length := by omega
          have hdrop3 : data.drop (pos + 2) = data.getD (pos + 2) 0 :: data.drop (pos + 3) :=
            drop_cons_getD hq'
          rw [hdrop2, hdrop3, remFrom_multi_cons _ _ _ (by omega), ← hdrop3]
      by_cases h8 : bit = 8
      · subst h8
        have hyield := @next_yield_reset data lastBit pos 8 (Or.inl rfl) (by omega)
        rw [collect_succ_some hyield]
        have e1 : remFrom (data.drop pos) lastBit 8
            = remFrom (data.drop (pos + 1)) lastBit 0 := by
          rw [hdrop, hdrop2, remFrom_multi_eight, ← hdrop2]
        have hf' : (remFrom (data.drop (pos + 1)) lastBit 1).length ≤ fuel := by
          rw [e1, estep] at hfuel
          simp only [List.length_cons] at hfuel
          omega
        rw [e1, estep]
        congr 1
        exact ih data lastBit (pos + 1) 1 hp1' (by omega) hlb1 hlb8
          (fun _ => hlb1) hf'
      · have hb8 : bit < 8 := by omega
        have hcond : ¬(bit = BITS ∨ (pos + 1 = data.length ∧ bit = lastBit)) := by
          rintro (hc | ⟨hc, _⟩)
          · have : bit = 8 := hc
            omega
          · exact hp1 hc
        have hyield := @next_yield data lastBit pos bit hcond (by omega)
        rw [collect_succ_some hyield]
        have e3 : remFrom (data.drop pos) lastBit bit
            = bitRead (data.getD pos 0) bit :: remFrom (data.drop pos) lastBit (bit + 1) := by
          rw [hdrop, hdrop2, remFrom_multi_cons _ _ _ hb8, ← hdrop2, ← hdrop]
        have hf' : (remFrom (data.drop pos) lastBit (bit + 1)).length ≤ fuel := by
          rw [e3] at hfuel
          simp only [List.length_cons] at hfuel
          omega
        rw [e3]
        congr 1
        exact ih data lastBit pos (bit + 1) hpos (by omega) hlb1 hlb8
          (fun hc => absurd hc hp1) hf'

/-- A packed vector's iterator yields the modelled bit list whenever the fuel
covers its length. -/
lemma Models.collect_eq {v : BitVec} {bs : List Bool} (hm : Models v bs) {fuel : Nat}
    (hfuel : bs.length ≤ fuel) : v.iter.collect fuel = bs := by
  obtain ⟨h1, h2, h3, h4⟩ := hm
  by_cases hnil : bs = []
  · subst hnil
    have hd : v.data = [] := by
      apply List.length_eq_zero.mp
      rw [h2]
      rfl
    cases fuel with
    | zero => rfl
    | succ fuel =>
      have hnone : Iter.next ⟨0, v.bit, 0, []⟩ = none := by
        have hb : v.bit = 8 := h1
        have hnorm : Iter.norm ⟨0, v.bit, 0, []⟩ = ⟨0, v.bit, 0, []⟩ := by
          unfold Iter.norm
          apply if_neg
          rintro (hc | ⟨hc, _⟩)
          · have : (0 : Nat) = 8 := hc
            omega
          · simp at hc
        simp only [Iter.next, hnorm]
        exact if_pos rfl
      have hit : BitVec.iter v = ⟨0, v.bit, 0, []⟩ := by
        rw [BitVec.iter, hd]
      rw [hit]
      exact collect_succ_none hnone
  · have hlen0 : bs.length ≠ 0 := fun h => hnil (List.length_eq_zero.mp h)
    have hdata : 0 < v.data.length := by
      rw [h2]
      omega
    have hcall := collect_spec fuel v.data v.bit 0 0 hdata (by omega)
      (h1 ▸ bitLen_pos bs.length) (h1 ▸ bitLen_le_eight bs.length)
      (fun _ => Nat.zero_le _)
      (by rw [List.drop_zero, h4]; exact hfuel)
    rw [List.drop_zero, h4] at hcall
    exact hcall

/-- A packed vector's full stream is the modelled bit list. -/
lemma Models.stream_eq {v : BitVec} {bs : List Bool} (hm : Models v bs) :
    v.stream = bs := by
  unfold BitVec.stream
  exact hm.collect_eq (Nat.le_of_eq hm.len_eq.symm)

end RC

namespace RC

/-! ## Heap extraction and the merge loop -/

lemma extractMin_cons (n : Node) (rest : List Node) :
    extractMin (n :: rest)
      = match extractMin rest with
        | none => some (n, rest)
        | some (k, rest') =>
          if n.count ≤ k.count then some (n, rest) else some (k, n :: rest') := rfl

lemma extractMin_eq_none : ∀ {l : List Node}, extractMin l = none ↔ l = [] := by
  intro l
  cases l with
  | nil => simp [extractMin]
  | cons n rest =>
    rw [extractMin_cons]
    constructor
    · intro h
      cases htail : extractMin rest with
      | none =>
        rw [htail] at h
        simp at h
      | some p =>
        obtain ⟨k, r⟩ := p
        rw [htail] at h
        by_cases hle : n.count ≤ k.count
        · simp [hle] at h
        · simp [hle] at h
    · intro h
      cases h

lemma extractMin_perm : ∀ {l : List Node} {n : Node} {rest : List Node},
    extractMin l = some (n, rest) → l.Perm (n :: rest) := by
  intro l
  induction l with
  | nil => intro n rest h; cases h
  | cons m tail ih =>
    intro n rest h
    rw [extractMin_cons] at h
    cases htail : extractMin tail with
    | none =>
      rw [htail] at h
      simp at h
      obtain ⟨h1, h2⟩ := h
      subst h1
      subst h2
      exact List.Perm.refl _
    | some p =>
      obtain ⟨k, rest'⟩ := p
      rw [htail] at h
      by_cases hle : m.count ≤ k.count
      · simp [hle] at h
        obtain ⟨h1, h2⟩ := h
        subst h1
        subst h2
        exact List.Perm.refl _
      · simp [hle] at h
        obtain ⟨h1, h2⟩ := h
        subst h1
        subst h2
        exact ((ih htail).cons m).trans (List.Perm.swap k m rest')

lemma extractMin_min : ∀ {l : List Node} {n : Node} {rest : List Node},
    extractMin l = some (n, rest) → ∀ m ∈ l, n.count ≤ m.count := by
  intro l
  induction l with
  | nil => intro n rest h; cases h
  | cons m0 tail ih =>
    intro n rest h x hx
    rw [extractMin_cons] at h
    cases htail : extractMin tail with
    | none =>
      have htail' : tail = [] := extractMin_eq_none.mp htail
      rw [htail] at h
      simp at h
      obtain ⟨h1, _⟩ := h
      subst h1
      subst htail'
      simp at hx
      subst hx
      exact Nat.le_refl _
    | some p =>
      obtain ⟨k, rest'⟩ := p
      rw [htail] at h
      by_cases hle : m0.count ≤ k.count
      · simp [hle] at h
        obtain ⟨h1, _⟩ := h
        subst h1
        rcases List.mem_cons.mp hx with hx | hx
        · subst hx
          exact Nat.le_refl _
        · exact Nat.le_trans hle (ih htail x hx)
      · simp [hle] at h
        obtain ⟨h1, _⟩ := h
        subst h1
        rcases List.mem_cons.mp hx with hx | hx
        · subst hx
          omega
        · exact ih htail x hx

lemma extractMin_isSome {l : List Node} (h : l ≠ []) :
    ∃ n rest, extractMin l = some (n, rest) := by
  cases hE : extractMin l with
  | none => exact absurd (extractMin_eq_none.mp hE) h
  | some p =>
    obtain ⟨a, b⟩ := p
    exact ⟨a, b, rfl⟩

lemma mergeLoop_step {fuel : Nat} {heap : List Node} (hlen : ¬heap.length ≤ 1)
    {left : Node} {h1 : List Node} (hL : extractMin heap = some (left, h1))
    {right : Node} {h2 : List Node} (hR : extractMin h1 = some (right, h2)) :
    mergeLoop (fuel + 1) heap
      = mergeLoop fuel
          (h2 ++ [Node.mk (left.count + right.count) none (some left) (some right)]) := by
  have e : mergeLoop (fuel + 1) heap
      = if heap.length ≤ 1 then heap
        else
          match extractMin heap with
          | none => heap
          | some (left, h1) =>
            match extractMin h1 with
            | none => heap
            | some (right, h2) =>
              mergeLoop fuel
                (h2 ++ [Node.mk (left.count + right.count) none (some left) (some right)]) :=
    rfl
  rw [e, if_neg hlen, hL]
  show (match extractMin h1 with
    | none => heap
    | some (right, h2) =>
      mergeLoop fuel
        (h2 ++ [Node.mk (left.count + right.count) none (some left) (some right)])) = _
  rw [hR]

/-- Running the merge loop with enough fuel leaves exactly one node, well
formed, whose leaf symbols are the symbols of the input heap. -/
lemma mergeLoop_result {counts : List Nat} : ∀ (fuel : Nat) (heap : List Node),
    heap ≠ [] → heap.length ≤ fuel + 1 →
    (∀ n ∈ heap, WFC counts n) →
    ∃ root, mergeLoop fuel heap = [root] ∧ WFC counts root ∧
      (root.paths.map Prod.fst).Perm
        (heap.flatMap (fun n => n.paths.map Prod.fst)) := by
  intro fuel
  induction fuel with
  | zero =>
    intro heap hne hlen hwf
    obtain ⟨n, hn⟩ : ∃ n, heap = [n] := by
      cases heap with
      | nil => exact absurd rfl hne
      | cons a t =>
        cases t with
        | nil => exact ⟨a, rfl⟩
        | cons b t' => simp at hlen
    subst hn
    exact ⟨n, rfl, hwf n (by simp), by simp⟩
  | succ fuel ih =>
    intro heap hne hlen hwf
    by_cases hsmall : heap.length ≤ 1
    · obtain ⟨n, hn⟩ : ∃ n, heap = [n] := by
        cases heap with
        | nil => exact absurd rfl hne
        | cons a t =>
          cases t with
          | nil => exact ⟨a, rfl⟩
          | cons b t' => simp at hsmall
      subst hn
      exact ⟨n, rfl, hwf n (by simp), by simp⟩
    · obtain ⟨left, h1, hL⟩ := extractMin_isSome hne
      have hperm1 := extractMin_perm hL
      have hlen1 : h1.length + 1 = heap.length := by
        have := hperm1.length_eq
        simp at this
        omega
      have hne1 : h1 ≠ [] := by
        intro hc
        rw [hc] at hlen1
        simp at hlen1
        omega
      obtain ⟨right, h2, hR⟩ := extractMin_isSome hne1
      have hperm2 := extractMin_perm hR
      have hlen2 : h2.length + 1 = h1.length := by
        have := hperm2.length_eq
        simp at this
        omega
      have hmemleft : left ∈ heap := (hperm1.mem_iff).mpr (by simp)
      have hmemright : right ∈ heap :=
        (hperm1.mem_iff).mpr (List.mem_cons_of_mem _ ((hperm2.mem_iff).mpr (by simp)))
      have hwfnew : ∀ n ∈ h2 ++ [Node.mk (left.count + right.count) none (some left) (some right)],
          WFC counts n := by
        intro n hn
        rcases List.mem_append.mp hn with hn | hn
        · exact hwf n ((hperm1.mem_iff).mpr
            (List.mem_cons_of_mem _ ((hperm2.mem_iff).mpr (List.mem_cons_of_mem _ hn))))
        · simp at hn
          subst hn
          exact WFC.node (hwf left hmemleft) (hwf right hmemright)
      obtain ⟨root, hroot, hwfroot, hpermroot⟩ :=
        ih (h2 ++ [Node.mk (left.count + right.count) none (some left) (some right)])
          (by simp) (by simp; omega) hwfnew
      refine ⟨root, ?_, hwfroot, ?_⟩
      · rw [mergeLoop_step hsmall hL hR, hroot]
      · have hfm : (Node.mk (left.count + right.count) none (some left)
              (some right)).paths.map Prod.fst
            = left.paths.map Prod.fst ++ right.paths.map Prod.fst := by
          show ((left.paths.map (fun (p : Nat × List Bool) => (p.1, true :: p.2))
              ++ right.paths.map (fun (p : Nat × List Bool) => (p.1, false :: p.2))).map
                Prod.fst) = _
          simp [Function.comp_def]
        have hp3 : heap.Perm (left :: right :: h2) := hperm1.trans (hperm2.cons left)
        refine hpermroot.trans (List.Perm.trans ?_ (hp3.flatMap_right
          (fun n => n.paths.map Prod.fst)).symm)
        rw [List.flatMap_append, List.flatMap_cons, List.flatMap_cons]
        simp only [List.flatMap_cons, List.flatMap_nil, List.append_nil, hfm]
        exact (List.perm_append_comm).trans (List.Perm.of_eq (List.append_assoc _ _ _))

end RC

namespace RC

/-! ## Characterizing `HuffmanTree::new` -/

lemma initHeap_eq (counts : List Nat) :
    counts.enum.map (fun p => Node.mk p.2 (some p.1) none none)
      = (List.range counts.length).map
          (fun i => Node.mk (counts.getD i 0) (some i) none none) := by
  apply List.ext_getElem
  · simp
  · intro i h1 h2
    simp only [List.getElem_map, List.getElem_enum, List.getElem_range]
    congr 1
    rw [List.getD_eq_getElem?_getD, List.getElem?_eq_getElem (by simpa using h1)]
    rfl

lemma leaf_flatMap_values (counts : List Nat) : ∀ (l : List Nat),
    ((l.map (fun i => Node.mk (counts.getD i 0) (some i) none none)).flatMap
      (fun n => n.paths.map Prod.fst)) = l := by
  intro l
  induction l with
  | nil => rfl
  | cons i l ih =>
    simp only [List.map_cons, List.flatMap_cons, ih]
    rfl

/-- Success shape of `HuffmanTree::new` on a table of at least two symbols:
the tree is well formed and its leaves carry exactly the symbols `0..N`. -/
lemma new_characterization {counts : List Nat} (h : 1 < counts.length) :
    ∃ root, HuffmanTree.new counts = some ⟨counts.length, root⟩ ∧
      WFC counts root ∧ (root.paths.map Prod.fst).Perm (List.range counts.length) := by
  have hlen : (counts.enum.map (fun p => Node.mk p.2 (some p.1) none none)).length
      = counts.length := by simp
  have hne : counts.enum.map (fun p => Node.mk p.2 (some p.1) none none) ≠ [] := by
    intro hc
    rw [hc] at hlen
    simp at hlen
    omega
  have hwfinit : ∀ n ∈ counts.enum.map (fun p => Node.mk p.2 (some p.1) none none),
      WFC counts n := by
    rw [initHeap_eq]
    intro n hn
    obtain ⟨i, _, hi⟩ := List.mem_map.mp hn
    rw [← hi]
    exact WFC.leaf i
  obtain ⟨root, hroot, hwf, hperm⟩ := mergeLoop_result counts.length
    (counts.enum.map fun p => Node.mk p.2 (some p.1) none none) hne (by omega) hwfinit
  refine ⟨root, ?_, hwf, ?_⟩
  · unfold HuffmanTree.new
    rw [if_pos h, hroot]
    rfl
  · refine hperm.trans ?_
    rw [initHeap_eq, leaf_flatMap_values counts (List.range counts.length)]

/-! ## The encoder table -/

lemma applyPaths_append (map : List BitVec) (ps qs : List (Nat × List Bool))
    (cur : List Bool) :
    applyPaths map (ps ++ qs) cur = applyPaths (applyPaths map ps cur) qs cur := by
  unfold applyPaths
  rw [List.foldl_append]

lemma applyPaths_map_cons (map : List BitVec) (ps : List (Nat × List Bool))
    (cur : List Bool) (b : Bool) :
    applyPaths map (ps.map (fun p => (p.1, b :: p.2))) cur
      = applyPaths map ps (cur ++ [b]) := by
  unfold applyPaths
  rw [List.foldl_map]
  congr 1
  funext m p
  rw [show cur ++ b :: p.2 = (cur ++ [b]) ++ p.2 by simp]

/-- `make_encoder` in path-list form. -/
lemma make_encoder_applyPaths {counts : List Nat} : ∀ {t : Node}, WFC counts t →
    ∀ (map : List BitVec) (cur : List Bool),
    t.make_encoder map cur = applyPaths map t.paths cur := by
  intro t hwf
  induction hwf with
  | leaf v =>
    intro map cur
    show map.set v (BitVec.ofList cur) = _
    simp [applyPaths, Node.paths]
  | node hl hr ihl ihr =>
    intro map cur
    rename_i l r
    show r.make_encoder (l.make_encoder map (cur ++ [true])) (cur ++ [false]) = _
    rw [ihl, ihr]
    show _ = applyPaths map
      ((l.paths.map (fun (p : Nat × List Bool) => (p.1, true :: p.2)))
        ++ (r.paths.map (fun (p : Nat × List Bool) => (p.1, false :: p.2)))) cur
    rw [applyPaths_append, applyPaths_map_cons, applyPaths_map_cons]

lemma applyPaths_length (map : List BitVec) (ps : List (Nat × List Bool))
    (cur : List Bool) : (applyPaths map ps cur).length = map.length := by
  induction ps generalizing map with
  | nil => rfl
  | cons p ps ih =>
    show (applyPaths (map.set p.1 (BitVec.ofList (cur ++ p.2))) ps cur).length = _
    rw [ih]
    simp

lemma applyPaths_getElem_notin {map : List BitVec} {ps : List (Nat × List Bool)}
    {cur : List Bool} {s : Nat} (h : ∀ p ∈ ps, p.1 ≠ s) :
    (applyPaths map ps cur)[s]? = map[s]? := by
  induction ps generalizing map with
  | nil => rfl
  | cons p ps ih =>
    show (applyPaths (map.set p.1 (BitVec.ofList (cur ++ p.2))) ps cur)[s]? = _
    rw [ih (fun q hq => h q (List.mem_cons_of_mem _ hq)),
      List.getElem?_set_ne (h p (by simp))]

lemma applyPaths_getElem_mem {map : List BitVec} {ps : List (Nat × List Bool)}
    {cur : List Bool} {s : Nat} {pth : List Bool}
    (hmem : (s, pth) ∈ ps) (hnodup : (ps.map Prod.fst).Nodup) (hs : s < map.length) :
    (applyPaths map ps cur)[s]? = some (BitVec.ofList (cur ++ pth)) := by
  induction ps generalizing map with
  | nil => cases hmem
  | cons p ps ih =>
    simp only [List.map_cons, List.nodup_cons] at hnodup
    obtain ⟨hhead, htail⟩ := hnodup
    rcases List.mem_cons.mp hmem with heq | hmem'
    · have hp1 : p.1 = s := by rw [← heq]
      have hnotin : ∀ q ∈ ps, q.1 ≠ s := by
        intro q hq hc
        apply hhead
        rw [hp1, ← hc]
        exact List.mem_map_of_mem Prod.fst hq
      show (applyPaths (map.set p.1 (BitVec.ofList (cur ++ p.2))) ps cur)[s]? = _
      rw [applyPaths_getElem_notin hnotin, ← heq]
      exact List.getElem?_set_self (by simpa using hs)
    · show (applyPaths (map.set p.1 (BitVec.ofList (cur ++ p.2))) ps cur)[s]? = _
      exact ih hmem' htail (by simpa using hs)

end RC

namespace RC

/-! ## The decoder table -/

lemma dsize_pos {counts : List Nat} {t : Node} (h : WFC counts t) : 1 ≤ t.dsize := by
  cases h with
  | leaf v => exact Nat.le_refl _
  | node hl hr =>
    show 1 ≤ 1 + _ + _
    omega

lemma flatAt_length {counts : List Nat} : ∀ {t : Node}, WFC counts t → ∀ (base : Nat),
    (t.flatAt base).length = t.dsize := by
  intro t hwf
  induction hwf with
  | leaf v => intro base; rfl
  | node hl hr ihl ihr =>
    intro base
    rename_i l r
    show (DecoderNode.Jump (base + 1 + l.dsize)
        :: (l.flatAt (base + 1) ++ r.flatAt (base + 1 + l.dsize))).length
      = 1 + l.dsize + r.dsize
    simp [ihl, ihr]
    omega

lemma set_middle {α : Type} (pre : List α) (x y : α) (suf : List α) :
    (pre ++ x :: suf).set pre.length y = pre ++ y :: suf := by
  induction pre with
  | nil => rfl
  | cons a pre ih => simp [ih]

/-- `make_decoder` emits the flattened table of the subtree after the given
accumulator. -/
lemma make_decoder_flatAt {counts : List Nat} : ∀ {t : Node}, WFC counts t →
    ∀ (map : List DecoderNode), t.make_decoder map = map ++ t.flatAt map.length := by
  intro t hwf
  induction hwf with
  | leaf v => intro map; rfl
  | node hl hr ihl ihr =>
    intro map
    rename_i l r
    have e1 : l.make_decoder (map ++ [DecoderNode.Jump 0])
        = (map ++ [DecoderNode.Jump 0]) ++ l.flatAt (map.length + 1) := by
      rw [ihl]
      congr 1
      simp
    have hlen1 : (l.make_decoder (map ++ [DecoderNode.Jump 0])).length
        = map.length + 1 + l.dsize := by
      rw [e1]
      simp [flatAt_length hl]
      omega
    show r.make_decoder ((l.make_decoder (map ++ [DecoderNode.Jump 0])).set map.length
        (.Jump (l.make_decoder (map ++ [DecoderNode.Jump 0])).length)) = _
    rw [hlen1, e1]
    have e2 : ((map ++ [DecoderNode.Jump 0]) ++ l.flatAt (map.length + 1)).set map.length
        (DecoderNode.Jump (map.length + 1 + l.dsize))
        = map ++ DecoderNode.Jump (map.length + 1 + l.dsize) :: l.flatAt (map.length + 1) := by
      rw [List.append_assoc]
      exact set_middle map _ _ _
    rw [e2, ihr]
    have hlen2 : (map ++ DecoderNode.Jump (map.length + 1 + l.dsize)
        :: l.flatAt (map.length + 1)).length = map.length + 1 + l.dsize := by
      simp [flatAt_length hl]
      omega
    rw [hlen2]
    show _ = map ++ (DecoderNode.Jump (map.length + 1 + l.dsize)
        :: (l.flatAt (map.length + 1) ++ r.flatAt (map.length + 1 + l.dsize)))
    simp

lemma decodeGo_succ_value {map : List DecoderNode} {idx : Nat} {v : Nat}
    {input : List Bool} (h : map[idx]? = some (.Value v)) (fuel : Nat) :
    decodeGo map (fuel + 1) idx input = some (v, input) := by
  show (match map[idx]? with
    | none => none
    | some (.Value value) => some (value, input)
    | some (.Jump right) =>
      match input with
      | [] => none
      | b :: input' => decodeGo map fuel (if b then idx + 1 else right) input') = _
  rw [h]

lemma decodeGo_succ_jump {map : List DecoderNode} {idx r : Nat} {b : Bool}
    {input : List Bool} (h : map[idx]? = some (.Jump r)) (fuel : Nat) :
    decodeGo map (fuel + 1) idx (b :: input)
      = decodeGo map fuel (if b then idx + 1 else r) input := by
  show (match map[idx]? with
    | none => none
    | some (.Value value) => some (value, b :: input)
    | some (.Jump right) =>
      match b :: input with
      | [] => none
      | c :: input' => decodeGo map fuel (if c then idx + 1 else right) input') = _
  rw [h]

/-- Following a leaf's codeword through the flattened table returns that
leaf's symbol and hands back exactly the remaining input. -/
lemma decodeGo_path {counts : List Nat} : ∀ {t : Node}, WFC counts t →
    ∀ (pre suf : List DecoderNode) (v : Nat) (pth rest : List Bool) (fuel : Nat),
    (v, pth) ∈ t.paths → t.dsize ≤ fuel →
    decodeGo (pre ++ t.flatAt pre.length ++ suf) fuel pre.length (pth ++ rest)
      = some (v, rest) := by
  intro t hwf
  induction hwf with
  | leaf v0 =>
    intro pre suf v pth rest fuel hmem hfuel
    have hmem' : v = v0 ∧ pth = [] := by
      have : (v, pth) ∈ [(v0, ([] : List Bool))] := hmem
      simp at this
      exact this
    obtain ⟨hv, hp⟩ := hmem'
    subst hv
    subst hp
    have hfuel1 : 1 ≤ fuel := hfuel
    obtain ⟨fuel, rfl⟩ : ∃ f, fuel = f + 1 := ⟨fuel - 1, by omega⟩
    have hget : (pre ++ [DecoderNode.Value v] ++ suf)[pre.length]?
        = some (.Value v) := by
      rw [List.append_assoc, List.getElem?_append_right (Nat.le_refl _)]
      simp
    exact decodeGo_succ_value hget fuel
  | node hl hr ihl ihr =>
    intro pre suf v pth rest fuel hmem hfuel
    rename_i l r
    have hfuel' : 1 + l.dsize + r.dsize ≤ fuel := hfuel
    obtain ⟨fuel, rfl⟩ : ∃ f, fuel = f + 1 := ⟨fuel - 1, by omega⟩
    have hflat : (Node.mk (l.count + r.count) none (some l) (some r)).flatAt pre.length
        = DecoderNode.Jump (pre.length + 1 + l.dsize)
          :: (l.flatAt (pre.length + 1) ++ r.flatAt (pre.length + 1 + l.dsize)) := rfl
    have hget : (pre ++ (Node.mk (l.count + r.count) none (some l)
        (some r)).flatAt pre.length ++ suf)[pre.length]?
        = some (.Jump (pre.length + 1 + l.dsize)) := by
      rw [hflat, List.append_assoc, List.getElem?_append_right (Nat.le_refl _)]
      simp
    have hmem' : (v, pth) ∈ (l.paths.map (fun (p : Nat × List Bool) => (p.1, true :: p.2)))
        ++ (r.paths.map (fun (p : Nat × List Bool) => (p.1, false :: p.2))) := hmem
    rcases List.mem_append.mp hmem' with hml | hmr
    · obtain ⟨q, hq, heq⟩ := List.mem_map.mp hml
      have hv : q.1 = v := (Prod.mk.injEq _ _ _ _).mp heq |>.1
      have hp : true :: q.2 = pth := (Prod.mk.injEq _ _ _ _).mp heq |>.2
      rw [← hp, ← hv]
      show decodeGo _ (fuel + 1) pre.length (true :: (q.2 ++ rest)) = _
      rw [decodeGo_succ_jump hget, if_pos rfl]
      have hre : pre ++ (Node.mk (l.count + r.count) none (some l)
            (some r)).flatAt pre.length ++ suf
          = (pre ++ [DecoderNode.Jump (pre.length + 1 + l.dsize)])
            ++ l.flatAt ((pre ++ [DecoderNode.Jump (pre.length + 1 + l.dsize)]).length)
            ++ (r.flatAt (pre.length + 1 + l.dsize) ++ suf) := by
        rw [hflat]
        simp
      rw [hre]
      have := ihl (pre ++ [DecoderNode.Jump (pre.length + 1 + l.dsize)])
        (r.flatAt (pre.length + 1 + l.dsize) ++ suf) q.1 q.2 rest fuel
        (by rw [show (q.1, q.2) = q from rfl]; exact hq) (by omega)
      simpa using this
    · obtain ⟨q, hq, heq⟩ := List.mem_map.mp hmr
      have hv : q.1 = v := (Prod.mk.injEq _ _ _ _).mp heq |>.1
      have hp : false :: q.2 = pth := (Prod.mk.injEq _ _ _ _).mp heq |>.2
      rw [← hp, ← hv]
      show decodeGo _ (fuel + 1) pre.length (false :: (q.2 ++ rest)) = _
      rw [decodeGo_succ_jump hget, if_neg (by simp)]
      have hre : pre ++ (Node.mk (l.count + r.count) none (some l)
            (some r)).flatAt pre.length ++ suf
          = ((pre ++ [DecoderNode.Jump (pre.length + 1 + l.dsize)])
              ++ l.flatAt (pre.length + 1))
            ++ r.flatAt (pre.length + 1 + l.dsize) ++ suf := by
        rw [hflat]
        simp
      rw [hre]
      have hlen3 : ((pre ++ [DecoderNode.Jump (pre.length + 1 + l.dsize)])
          ++ l.flatAt (pre.length + 1)).length = pre.length + 1 + l.dsize := by
        simp [flatAt_length hl]
        omega
      have := ihr ((pre ++ [DecoderNode.Jump (pre.length + 1 + l.dsize)])
          ++ l.flatAt (pre.length + 1))
        suf q.1 q.2 rest fuel
        (by rw [show (q.1, q.2) = q from rfl]; exact hq) (by omega)
      rw [hlen3] at this
      exact this

end RC

namespace RC

/-! ## Assembly: trees produced by `HuffmanTree::new` -/

/-- Everything `HuffmanTree::new counts = some t` guarantees about `t`. -/
lemma new_inv {counts : List Nat} {t : HuffmanTree}
    (ht : HuffmanTree.new counts = some t) :
    1 < counts.length ∧ t.elements = counts.length ∧ WFC counts t.nodes ∧
      (t.nodes.paths.map Prod.fst).Perm (List.range counts.length) := by
  have hlen : 1 < counts.length := by
    by_contra h
    unfold HuffmanTree.new at ht
    rw [if_neg h] at ht
    cases ht
  obtain ⟨root, hr, hwf, hperm⟩ := new_characterization hlen
  rw [ht] at hr
  have : t = ⟨counts.length, root⟩ := by
    injection hr
  subst this
  exact ⟨hlen, rfl, hwf, hperm⟩

lemma paths_values_lt {counts : List Nat} {root : Node}
    (hperm : (root.paths.map Prod.fst).Perm (List.range counts.length))
    {s : Nat} {pth : List Bool} (hmem : (s, pth) ∈ root.paths) : s < counts.length := by
  have : s ∈ List.range counts.length :=
    hperm.subset (List.mem_map_of_mem Prod.fst hmem)
  simpa using this

lemma paths_complete {counts : List Nat} {root : Node}
    (hperm : (root.paths.map Prod.fst).Perm (List.range counts.length))
    {s : Nat} (hs : s < counts.length) : ∃ pth, (s, pth) ∈ root.paths := by
  have : s ∈ root.paths.map Prod.fst :=
    (hperm.mem_iff).mpr (List.mem_range.mpr hs)
  obtain ⟨p, hp, hps⟩ := List.mem_map.mp this
  refine ⟨p.2, ?_⟩
  rw [← hps]
  exact hp

/-- The codeword table entry of a symbol is the bit vector of its leaf path. -/
lemma encode_spec {counts : List Nat} {t : HuffmanTree}
    (ht : HuffmanTree.new counts = some t) {s : Nat} {pth : List Bool}
    (hmem : (s, pth) ∈ t.nodes.paths) :
    t.encoder.encode s = some (BitVec.ofList pth) := by
  obtain ⟨hlen, helts, hwf, hperm⟩ := new_inv ht
  have hnodup : (t.nodes.paths.map Prod.fst).Nodup :=
    (hperm.nodup_iff).mpr (List.nodup_range _)
  have hs : s < counts.length := paths_values_lt hperm hmem
  show (t.nodes.make_encoder (List.replicate t.elements BitVec.new) [])[s]? = _
  rw [make_encoder_applyPaths hwf]
  have hlen2 : s < (List.replicate t.elements BitVec.new).length := by
    rw [List.length_replicate, helts]
    exact hs
  have h2 := @applyPaths_getElem_mem _ _ [] _ _ hmem hnodup hlen2
  simpa using h2

/-- Decoding any continuation of a leaf path returns the leaf's symbol and
consumes exactly the path. -/
lemma decode_spec {counts : List Nat} {t : HuffmanTree}
    (ht : HuffmanTree.new counts = some t) {s : Nat} {pth : List Bool}
    (hmem : (s, pth) ∈ t.nodes.paths) (rest : List Bool) :
    t.decoder.decode (pth ++ rest) = some (s, rest) := by
  obtain ⟨hlen, helts, hwf, hperm⟩ := new_inv ht
  show decodeGo (t.nodes.make_decoder []) (t.nodes.make_decoder []).length 0
    (pth ++ rest) = some (s, rest)
  rw [make_decoder_flatAt hwf]
  simp only [List.nil_append, List.length_nil]
  rw [flatAt_length hwf]
  have := decodeGo_path hwf [] [] s pth rest t.nodes.dsize hmem (Nat.le_refl _)
  simpa using this

/-- Distinct leaves of a well-formed tree have prefix-incomparable paths. -/
lemma paths_prefixfree {counts : List Nat} : ∀ {t : Node}, WFC counts t →
    ∀ {v1 : Nat} {p1 : List Bool} {v2 : Nat} {p2 : List Bool},
    (v1, p1) ∈ t.paths → (v2, p2) ∈ t.paths → Starts p1 p2 →
    v1 = v2 ∧ p1 = p2 := by
  intro t hwf
  induction hwf with
  | leaf v0 =>
    intro v1 p1 v2 p2 h1 h2 _
    have e1 : (v1, p1) ∈ [(v0, ([] : List Bool))] := h1
    have e2 : (v2, p2) ∈ [(v0, ([] : List Bool))] := h2
    simp at e1 e2
    obtain ⟨ha, hb⟩ := e1
    obtain ⟨hc, hd⟩ := e2
    subst ha; subst hb; subst hc; subst hd
    exact ⟨rfl, rfl⟩
  | node hl hr ihl ihr =>
    intro v1 p1 v2 p2 h1 h2 hpre
    rename_i l r
    have e1 : (v1, p1) ∈ (l.paths.map (fun (p : Nat × List Bool) => (p.1, true :: p.2)))
        ++ (r.paths.map (fun (p : Nat × List Bool) => (p.1, false :: p.2))) := h1
    have e2 : (v2, p2) ∈ (l.paths.map (fun (p : Nat × List Bool) => (p.1, true :: p.2)))
        ++ (r.paths.map (fun (p : Nat × List Bool) => (p.1, false :: p.2))) := h2
    obtain ⟨tl, htl⟩ := hpre
    rcases List.mem_append.mp e1 with hm1 | hm1 <;>
      rcases List.mem_append.mp e2 with hm2 | hm2
    · obtain ⟨q1, hq1, heq1⟩ := List.mem_map.mp hm1
      obtain ⟨q2, hq2, heq2⟩ := List.mem_map.mp hm2
      have hv1 : q1.1 = v1 := congrArg Prod.fst heq1
      have hp1 : true :: q1.2 = p1 := congrArg Prod.snd heq1
      have hv2 : q2.1 = v2 := congrArg Prod.fst heq2
      have hp2 : true :: q2.2 = p2 := congrArg Prod.snd heq2
      have hq : Starts q1.2 q2.2 := by
        refine ⟨tl, ?_⟩
        have : (true :: q1.2) ++ tl = true :: q2.2 := by rw [hp1, hp2, htl]
        simpa using this
      have := @ihl q1.1 q1.2 q2.1 q2.2 (by simpa using hq1) (by simpa using hq2) hq
      obtain ⟨ha, hb⟩ := this
      constructor
      · rw [← hv1, ← hv2, ha]
      · rw [← hp1, ← hp2, hb]
    · obtain ⟨q1, hq1, heq1⟩ := List.mem_map.mp hm1
      obtain ⟨q2, hq2, heq2⟩ := List.mem_map.mp hm2
      have hp1 : true :: q1.2 = p1 := congrArg Prod.snd heq1
      have hp2 : false :: q2.2 = p2 := congrArg Prod.snd heq2
      exfalso
      rw [← hp1, ← hp2] at htl
      simp at htl
    · obtain ⟨q1, hq1, heq1⟩ := List.mem_map.mp hm1
      obtain ⟨q2, hq2, heq2⟩ := List.mem_map.mp hm2
      have hp1 : false :: q1.2 = p1 := congrArg Prod.snd heq1
      have hp2 : true :: q2.2 = p2 := congrArg Prod.snd heq2
      exfalso
      rw [← hp1, ← hp2] at htl
      simp at htl
    · obtain ⟨q1, hq1, heq1⟩ := List.mem_map.mp hm1
      obtain ⟨q2, hq2, heq2⟩ := List.mem_map.mp hm2
      have hv1 : q1.1 = v1 := congrArg Prod.fst heq1
      have hp1 : false :: q1.2 = p1 := congrArg Prod.snd heq1
      have hv2 : q2.1 = v2 := congrArg Prod.fst heq2
      have hp2 : false :: q2.2 = p2 := congrArg Prod.snd heq2
      have hq : Starts q1.2 q2.2 := by
        refine ⟨tl, ?_⟩
        have : (false :: q1.2) ++ tl = false :: q2.2 := by rw [hp1, hp2, htl]
        simpa using this
      have := @ihr q1.1 q1.2 q2.1 q2.2 (by simpa using hq1) (by simpa using hq2) hq
      obtain ⟨ha, hb⟩ := this
      constructor
      · rw [← hv1, ← hv2, ha]
      · rw [← hp1, ← hp2, hb]

end RC

namespace RC

/-- Repeated decoding of concatenated codewords recovers the symbol list. -/
lemma decodeMany_spec {counts : List Nat} {t : HuffmanTree}
    (ht : HuffmanTree.new counts = some t) :
    ∀ (syms : List Nat), (∀ s ∈ syms, s < counts.length) →
    decodeMany t.decoder syms.length
      ((syms.map fun s => ((t.encoder.encode s).getD BitVec.new).stream).flatten)
      = some syms := by
  intro syms
  induction syms with
  | nil => intro _; rfl
  | cons s syms ih =>
    intro hall
    obtain ⟨hlen, helts, hwf, hperm⟩ := new_inv ht
    obtain ⟨pth, hmem⟩ := paths_complete hperm (hall s (by simp))
    have henc := encode_spec ht hmem
    have hstream : ((t.encoder.encode s).getD BitVec.new).stream = pth := by
      rw [henc]
      exact (models_ofList pth).stream_eq
    show (match t.decoder.decode (((s :: syms).map fun s =>
        ((t.encoder.encode s).getD BitVec.new).stream).flatten) with
      | none => none
      | some (v, input') => (decodeMany t.decoder syms.length input').map
          (fun vs => v :: vs)) = _
    rw [List.map_cons, List.flatten_cons, hstream, decode_spec ht hmem]
    show (decodeMany t.decoder syms.length ((syms.map fun s =>
        ((t.encoder.encode s).getD BitVec.new).stream).flatten)).map (fun vs => s :: vs)
      = some (s :: syms)
    rw [ih (fun x hx => hall x (List.mem_cons_of_mem _ hx))]
    rfl

/-- The stream of a byte-aligned buffer reads every byte completely. -/
lemma stream_aligned (dl : List Nat) :
    BitVec.stream ⟨8, dl⟩ = remFrom dl 8 0 := by
  cases hdl : dl with
  | nil => rfl
  | cons x rest =>
    have hlen : (BitVec.mk 8 (x :: rest)).len = (x :: rest).length * 8 := by
      show (x :: rest).length * BITS + 8 - BITS = _
      show (x :: rest).length * 8 + 8 - 8 = _
      omega
    have hrem : (remFrom (x :: rest) 8 0).length = (x :: rest).length * 8 := by
      have := remFrom_length (x :: rest) 8 0 (by simp) (by omega) (by omega)
        (fun _ => by omega)
      simp at this ⊢
      omega
    show Iter.collect ⟨0, 8, 0, x :: rest⟩ ((BitVec.mk 8 (x :: rest)).len) = _
    rw [hlen]
    have := collect_spec ((x :: rest).length * 8) (x :: rest) 8 0 0 (by simp)
      (by omega) (by omega) (by omega) (fun _ => by omega) (by rw [List.drop_zero]; omega)
    rw [List.drop_zero] at this
    exact this

lemma flatAt_jump_bounds {counts : List Nat} : ∀ {t : Node}, WFC counts t →
    ∀ (base j r : Nat), (t.flatAt base)[j]? = some (.Jump r) →
    base + j + 2 ≤ r ∧ r + 1 ≤ base + t.dsize := by
  intro t hwf
  induction hwf with
  | leaf v =>
    intro base j r h
    exfalso
    cases j with
    | zero => simp [Node.flatAt] at h
    | succ j => simp [Node.flatAt] at h
  | node hl hr ihl ihr =>
    intro base j r h
    rename_i l r'
    have hflat : (Node.mk (l.count + r'.count) none (some l) (some r')).flatAt base
        = DecoderNode.Jump (base + 1 + l.dsize)
          :: (l.flatAt (base + 1) ++ r'.flatAt (base + 1 + l.dsize)) := rfl
    have hds : (Node.mk (l.count + r'.count) none (some l) (some r')).dsize
        = 1 + l.dsize + r'.dsize := rfl
    rw [hflat] at h
    rw [hds]
    have hdl := dsize_pos hl
    have hdr := dsize_pos hr
    cases j with
    | zero =>
      simp at h
      omega
    | succ j =>
      rw [List.getElem?_cons_succ] at h
      by_cases hj : j < (l.flatAt (base + 1)).length
      · rw [List.getElem?_append_left hj] at h
        have := ihl (base + 1) j r h
        omega
      · rw [List.getElem?_append_right (by omega)] at h
        have := ihr (base + 1 + l.dsize) (j - (l.flatAt (base + 1)).length) r h
        have hfl : (l.flatAt (base + 1)).length = l.dsize := flatAt_length hl _
        rw [hfl] at this
        omega

end RC

namespace RC

lemma byteBits_zero_lo (x hi : Nat) :
    byteBits x 0 hi = (List.range hi).map (bitRead x) := by
  simp [byteBits]

/-! ## Claims -/

/-- C5: after pushing any `k` bits into an empty `BitVec`, `len()` returns
exactly `k` and `into_bytes()` returns exactly `⌈k / 8⌉` bytes — in
particular also when `k` is a multiple of 8 (cursor left "full") and after
the next push allocates a new byte. -/
theorem push_len_into_bytes (bs : List Bool) :
    (bs.foldl BitVec.push BitVec.new).len = bs.length ∧
    (bs.foldl BitVec.push BitVec.new).into_bytes.length = (bs.length + 7) / 8 := by
  have he : bs.foldl BitVec.push BitVec.new = BitVec.ofList bs := rfl
  rw [he]
  have hm := models_ofList bs
  exact ⟨hm.len_eq, hm.2.1⟩

/-- C6: every call of `iter()` on a `BitVec` built by pushing the bits `bs`
yields a fresh iterator that produces exactly `bs` — length `len()`, push
order — and returns `none` from then on (any fuel of at least `len()`
collects the same list), never touching the unused high bits of a partially
filled final byte. -/
theorem iter_yields_pushed_bits (bs : List Bool) (fuel : Nat)
    (hfuel : (BitVec.ofList bs).len ≤ fuel) :
    ((BitVec.ofList bs).iter).collect fuel = bs := by
  have hm := models_ofList bs
  exact hm.collect_eq (by rw [← hm.len_eq]; exact hfuel)

theorem iter_yields_pushed_bits_witness :
    (BitVec.ofList [true, false, true, true, false, false, true, false, true]).len ≤ 100 ∧
      ((BitVec.ofList
        [true, false, true, true, false, false, true, false, true]).iter).collect 100
        = [true, false, true, true, false, false, true, false, true] :=
  ⟨by decide, iter_yields_pushed_bits
    [true, false, true, true, false, false, true, false, true] 100 (by decide)⟩

/-- C4: `split_rest()` on an empty `BitVec` returns two empty vectors; when
`len()` is a (nonzero) multiple of 8 it returns the original vector paired
with an empty one; otherwise the first component is byte-aligned, the second
holds fewer than 8 bits, and their bit streams concatenate to the original
stream. -/
theorem split_rest_spec (bs : List Bool) :
    (bs = [] → (BitVec.ofList bs).split_rest = (BitVec.new, BitVec.new)) ∧
    (bs ≠ [] → bs.length % 8 = 0 →
      (BitVec.ofList bs).split_rest = (BitVec.ofList bs, BitVec.new)) ∧
    (bs.length % 8 ≠ 0 →
      (BitVec.ofList bs).split_rest.1.len % 8 = 0 ∧
      (BitVec.ofList bs).split_rest.2.len < 8 ∧
      (BitVec.ofList bs).split_rest.1.stream ++ (BitVec.ofList bs).split_rest.2.stream
        = bs) := by
  obtain ⟨h1, h2, h3, h4⟩ := models_ofList bs
  refine ⟨?_, ?_, ?_⟩
  · intro h
    subst h
    rfl
  · intro hne hmod
    unfold BitVec.split_rest
    rw [if_pos]
    rw [h1]
    exact (bitLen_eq_eight_iff _).mpr hmod
  · intro hmod
    have hbit : (BitVec.ofList bs).bit = bs.length % 8 := by
      rw [h1, bitLen_eq_mod _ hmod]
    have hbit8 : (BitVec.ofList bs).bit ≠ BITS := by
      rw [hbit]
      show bs.length % 8 ≠ 8
      omega
    have hdne : (BitVec.ofList bs).data ≠ [] := by
      intro hc
      rw [hc] at h2
      simp at h2
      have : bs.length ≠ 0 := fun hz => hmod (by rw [hz])
      omega
    obtain ⟨init, w, hvw⟩ := (List.eq_nil_or_concat (BitVec.ofList bs).data).resolve_left hdne
    rw [List.concat_eq_append] at hvw
    have hdrop : (BitVec.ofList bs).data.dropLast = init := by
      rw [hvw]
      simp
    have hlastb : (BitVec.ofList bs).data.getLast?.getD 0 = w := by
      rw [hvw, List.getLast?_append_cons]
      rfl
    have hsplit : (BitVec.ofList bs).split_rest
        = (⟨BITS, init⟩,
           BitVec.ofList ((List.range (bs.length % 8)).map (bitRead w))) := by
      unfold BitVec.split_rest
      rw [if_neg hbit8]
      show ((⟨BITS, (BitVec.ofList bs).data.dropLast⟩ : BitVec),
        (List.range (BitVec.ofList bs).bit).foldl
          (fun acc i => acc.push (bitRead ((BitVec.ofList bs).data.getLast?.getD 0) i))
          (BitVec.with_capacity 8)) = _
      rw [hlastb, hdrop, hbit]
      congr 1
      show _ = ((List.range (bs.length % 8)).map (bitRead w)).foldl BitVec.push
        (BitVec.with_capacity ((List.range (bs.length % 8)).map (bitRead w)).length)
      rw [List.foldl_map]
      rfl
    have hmlast := models_ofList ((List.range (bs.length % 8)).map (bitRead w))
    have hchunklen : ((List.range (bs.length % 8)).map (bitRead w)).length
        = bs.length % 8 := by simp
    refine ⟨?_, ?_, ?_⟩
    · rw [hsplit]
      show (init.length * BITS + BITS - BITS) % 8 = 0
      show (init.length * 8 + 8 - 8) % 8 = 0
      omega
    · rw [hsplit]
      show (BitVec.ofList ((List.range (bs.length % 8)).map (bitRead w))).len < 8
      rw [hmlast.len_eq, hchunklen]
      omega
    · rw [hsplit]
      show BitVec.stream ⟨BITS, init⟩
          ++ (BitVec.ofList ((List.range (bs.length % 8)).map (bitRead w))).stream = bs
      rw [hmlast.stream_eq, ← byteBits_zero_lo]
      have hbs : remFrom (init ++ [w]) (bs.length % 8) 0 = bs := by
        rw [← hvw, ← hbit]
        exact h4
      rcases List.eq_nil_or_concat init with hinil | ⟨i2, w2, hi2⟩
      · subst hinil
        have e0 : BitVec.stream ⟨BITS, ([] : List Nat)⟩ = [] := rfl
        have e1 : remFrom [w] (bs.length % 8) 0 = byteBits w 0 (bs.length % 8) := rfl
        rw [e0, List.nil_append]
        rw [List.nil_append] at hbs
        rw [← e1]
        exact hbs
      · have hine : init ≠ [] := by
          rw [hi2]
          simp
        show BitVec.stream ⟨8, init⟩ ++ byteBits w 0 (bs.length % 8) = bs
        rw [stream_aligned]
        rw [remFrom_append init _ _ _ hine] at hbs
        exact hbs

theorem split_rest_spec_witness :
    (BitVec.ofList []).split_rest = (BitVec.new, BitVec.new) ∧
    (BitVec.ofList (List.replicate 8 true)).split_rest
      = (BitVec.ofList (List.replicate 8 true), BitVec.new) ∧
    ((BitVec.ofList (List.replicate 9 true)).split_rest.1.len % 8 = 0 ∧
      (BitVec.ofList (List.replicate 9 true)).split_rest.2.len < 8 ∧
      (BitVec.ofList (List.replicate 9 true)).split_rest.1.stream
          ++ (BitVec.ofList (List.replicate 9 true)).split_rest.2.stream
        = List.replicate 9 true) :=
  ⟨(split_rest_spec []).1 rfl,
   (split_rest_spec (List.replicate 8 true)).2.1 (by decide) (by decide),
   (split_rest_spec (List.replicate 9 true)).2.2 (by decide)⟩

/-- In the unbounded-count model, `HuffmanTree::new(counts)` fails (the
`assert!` panics, modelled by `none`) exactly when `counts.len() < 2`, and
succeeds with a tree for every table of at least two symbols.  This ignores
the overflow panic of the checked build; see the `u128` variants below. -/
theorem new_requires_two_symbols (counts : List Nat) :
    (HuffmanTree.new counts = none ↔ counts.length < 2) ∧
    (2 ≤ counts.length → ∃ t, HuffmanTree.new counts = some t) := by
  constructor
  · constructor
    · intro h
      by_contra hlen
      obtain ⟨root, hr, _, _⟩ := @new_characterization counts (by omega)
      rw [h] at hr
      cases hr
    · intro h
      unfold HuffmanTree.new
      rw [if_neg (by omega)]
  · intro h
    obtain ⟨root, hr, _, _⟩ := @new_characterization counts (by omega)
    exact ⟨_, hr⟩

theorem new_requires_two_symbols_witness :
    (HuffmanTree.new ([] : List Nat) = none) ∧
    (HuffmanTree.new [7] = none) ∧
    (∃ t, HuffmanTree.new [0, 0] = some t) :=
  ⟨(new_requires_two_symbols []).1.mpr (by decide),
   (new_requires_two_symbols [7]).1.mpr (by decide),
   (new_requires_two_symbols [0, 0]).2 (by decide)⟩

/-- C1: for every frequency table of at least two symbols (equivalently,
whenever `HuffmanTree::new` succeeds) and every symbol `s` of the table,
decoding the encoder's codeword for `s` with the decoder built from the same
tree returns `s` and consumes the whole codeword. -/
theorem huffman_roundtrip {counts : List Nat} {t : HuffmanTree}
    (ht : HuffmanTree.new counts = some t) {s : Nat} (hs : s < counts.length) :
    ∃ cw, t.encoder.encode s = some cw ∧
      t.decoder.decode cw.stream = some (s, []) := by
  obtain ⟨hlen, helts, hwf, hperm⟩ := new_inv ht
  obtain ⟨pth, hmem⟩ := paths_complete hperm hs
  refine ⟨BitVec.ofList pth, encode_spec ht hmem, ?_⟩
  rw [(models_ofList pth).stream_eq]
  have := decode_spec ht hmem []
  simpa using this

theorem huffman_roundtrip_witness :
    ∃ cw, ((HuffmanTree.new [1, 2, 4, 8]).getD
        ⟨0, Node.mk 0 none none none⟩).encoder.encode 3 = some cw ∧
      ((HuffmanTree.new [1, 2, 4, 8]).getD
        ⟨0, Node.mk 0 none none none⟩).decoder.decode cw.stream = some (3, []) :=
  @huffman_roundtrip [1, 2, 4, 8] ((HuffmanTree.new [1, 2, 4, 8]).getD ⟨0, Node.mk 0 none none none⟩) (by rfl) 3 (by decide)

/-- C2: the encoder built from a tree over `N ≥ 2` symbols has exactly `N`
codewords, and no symbol's codeword is a prefix (in particular, a proper
prefix) of a different symbol's codeword. -/
theorem encoder_codewords_prefixfree {counts : List Nat} {t : HuffmanTree}
    (ht : HuffmanTree.new counts = some t) :
    t.encoder.map.length = counts.length ∧
    (∀ i j cwi cwj, i ≠ j →
      t.encoder.encode i = some cwi → t.encoder.encode j = some cwj →
      ¬ Starts cwi.stream cwj.stream) := by
  obtain ⟨hlen, helts, hwf, hperm⟩ := new_inv ht
  constructor
  · show (t.nodes.make_encoder (List.replicate t.elements BitVec.new) []).length = _
    rw [make_encoder_applyPaths hwf, applyPaths_length]
    simp [helts]
  · intro i j cwi cwj hij henci hencj hstarts
    have hi : i < counts.length := by
      have : i < t.encoder.map.length := by
        by_contra hc
        rw [show t.encoder.encode i = t.encoder.map[i]? from rfl] at henci
        rw [List.getElem?_eq_none (by omega)] at henci
        cases henci
      have hL : t.encoder.map.length = counts.length := by
        show (t.nodes.make_encoder (List.replicate t.elements BitVec.new) []).length = _
        rw [make_encoder_applyPaths hwf, applyPaths_length]
        simp [helts]
      omega
    have hj : j < counts.length := by
      have : j < t.encoder.map.length := by
        by_contra hc
        rw [show t.encoder.encode j = t.encoder.map[j]? from rfl] at hencj
        rw [List.getElem?_eq_none (by omega)] at hencj
        cases hencj
      have hL : t.encoder.map.length = counts.length := by
        show (t.nodes.make_encoder (List.replicate t.elements BitVec.new) []).length = _
        rw [make_encoder_applyPaths hwf, applyPaths_length]
        simp [helts]
      omega
    obtain ⟨pi, hmi⟩ := paths_complete hperm hi
    obtain ⟨pj, hmj⟩ := paths_complete hperm hj
    have hei := encode_spec ht hmi
    have hej := encode_spec ht hmj
    rw [henci] at hei
    rw [hencj] at hej
    have hcwi : cwi = BitVec.ofList pi := Option.some.inj hei
    have hcwj : cwj = BitVec.ofList pj := Option.some.inj hej
    rw [hcwi, hcwj, (models_ofList pi).stream_eq, (models_ofList pj).stream_eq] at hstarts
    have := paths_prefixfree hwf hmi hmj hstarts
    exact hij this.1

theorem encoder_codewords_prefixfree_witness :
    ((HuffmanTree.new [1, 2, 4, 8]).getD
        ⟨0, Node.mk 0 none none none⟩).encoder.map.length = 4 ∧
    ¬ Starts (((((HuffmanTree.new [1, 2, 4, 8]).getD
          ⟨0, Node.mk 0 none none none⟩).encoder.encode 3).getD BitVec.new).stream)
        (((((HuffmanTree.new [1, 2, 4, 8]).getD
          ⟨0, Node.mk 0 none none none⟩).encoder.encode 2).getD BitVec.new).stream) :=
  ⟨(@encoder_codewords_prefixfree [1, 2, 4, 8] ((HuffmanTree.new [1, 2, 4, 8]).getD ⟨0, Node.mk 0 none none none⟩) (by rfl)).1,
   (@encoder_codewords_prefixfree [1, 2, 4, 8] ((HuffmanTree.new [1, 2, 4, 8]).getD ⟨0, Node.mk 0 none none none⟩) (by rfl)).2 3 2
     ((((HuffmanTree.new [1, 2, 4, 8]).getD
       ⟨0, Node.mk 0 none none none⟩).encoder.encode 3).getD BitVec.new)
     ((((HuffmanTree.new [1, 2, 4, 8]).getD
       ⟨0, Node.mk 0 none none none⟩).encoder.encode 2).getD BitVec.new)
     (by decide) (by rfl) (by rfl)⟩

/-- C7: decoding consumes exactly the bits of the matched codeword and no
more — any continuation is handed back untouched — so repeated invocation on
one bit source holding a concatenation of codewords returns the encoded
symbols in order. -/
theorem decode_consumes_exactly {counts : List Nat} {t : HuffmanTree}
    (ht : HuffmanTree.new counts = some t) :
    (∀ s, s < counts.length → ∃ cw, t.encoder.encode s = some cw ∧
      ∀ rest, t.decoder.decode (cw.stream ++ rest) = some (s, rest)) ∧
    (∀ syms : List Nat, (∀ s ∈ syms, s < counts.length) →
      decodeMany t.decoder syms.length
        ((syms.map fun s => ((t.encoder.encode s).getD BitVec.new).stream).flatten)
        = some syms) := by
  constructor
  · intro s hs
    obtain ⟨hlen, helts, hwf, hperm⟩ := new_inv ht
    obtain ⟨pth, hmem⟩ := paths_complete hperm hs
    refine ⟨BitVec.ofList pth, encode_spec ht hmem, fun rest => ?_⟩
    rw [(models_ofList pth).stream_eq]
    exact decode_spec ht hmem rest
  · exact decodeMany_spec ht

theorem decode_consumes_exactly_witness :
    (∃ cw, ((HuffmanTree.new [1, 2, 4, 8]).getD
          ⟨0, Node.mk 0 none none none⟩).encoder.encode 2 = some cw ∧
      ((HuffmanTree.new [1, 2, 4, 8]).getD
          ⟨0, Node.mk 0 none none none⟩).decoder.decode (cw.stream ++ [true, true])
        = some (2, [true, true])) ∧
    decodeMany ((HuffmanTree.new [1, 2, 4, 8]).getD
        ⟨0, Node.mk 0 none none none⟩).decoder 3
      (([0, 3, 2].map fun s => ((((HuffmanTree.new [1, 2, 4, 8]).getD
        ⟨0, Node.mk 0 none none none⟩).encoder.encode s).getD BitVec.new).stream).flatten)
      = some [0, 3, 2] := by
  constructor
  · obtain ⟨cw, hc1, hc2⟩ :=
      (@decode_consumes_exactly [1, 2, 4, 8] ((HuffmanTree.new [1, 2, 4, 8]).getD ⟨0, Node.mk 0 none none none⟩) (by rfl)).1 2 (by decide)
    exact ⟨cw, hc1, hc2 [true, true]⟩
  · exact (@decode_consumes_exactly [1, 2, 4, 8] ((HuffmanTree.new [1, 2, 4, 8]).getD ⟨0, Node.mk 0 none none none⟩) (by rfl)).2 [0, 3, 2] (by decide)

/-- C9: for the frequency table `[1, 2, 4, 8]` the encoder assigns codewords
of lengths 3, 3, 2, 1 to symbols 0, 1, 2, 3 respectively. -/
theorem encode_lengths_example :
    ∃ t, HuffmanTree.new [1, 2, 4, 8] = some t ∧
      (t.encoder.encode 0).map BitVec.len = some 3 ∧
      (t.encoder.encode 1).map BitVec.len = some 3 ∧
      (t.encoder.encode 2).map BitVec.len = some 2 ∧
      (t.encoder.encode 3).map BitVec.len = some 1 :=
  ⟨(HuffmanTree.new [1, 2, 4, 8]).getD ⟨0, Node.mk 0 none none none⟩,
    rfl, rfl, rfl, rfl, rfl⟩

/-- C10: the decoder table is well formed: every `Jump` slot at index `i`
points at a target `r` with `i + 2 ≤ r ≤ length - 1`, so the decode loop's
index strictly increases and stays in bounds, and whenever the bit source
holds (a continuation of) some leaf's codeword the loop reaches a `Value`
slot — a fuel of `map.length` steps always suffices. -/
theorem decoder_table_wellformed {counts : List Nat} {t : HuffmanTree}
    (ht : HuffmanTree.new counts = some t) :
    (∀ i r, t.decoder.map[i]? = some (.Jump r) →
      i + 2 ≤ r ∧ r ≤ t.decoder.map.length - 1) ∧
    (∀ s pth rest, (s, pth) ∈ t.nodes.paths →
      decodeGo t.decoder.map t.decoder.map.length 0 (pth ++ rest) = some (s, rest)) := by
  obtain ⟨hlen, helts, hwf, hperm⟩ := new_inv ht
  have hmap : t.decoder.map = t.nodes.flatAt 0 := by
    show t.nodes.make_decoder [] = _
    rw [make_decoder_flatAt hwf]
    rfl
  have hmaplen : t.decoder.map.length = t.nodes.dsize := by
    rw [hmap, flatAt_length hwf]
  constructor
  · intro i r h
    rw [hmap] at h
    have hb := flatAt_jump_bounds hwf 0 i r h
    constructor
    · omega
    · omega
  · intro s pth rest hmem
    exact decode_spec ht hmem rest

theorem decoder_table_wellformed_witness :
    (0 + 2 ≤ 6 ∧ 6 ≤ ((HuffmanTree.new [1, 2, 4, 8]).getD
        ⟨0, Node.mk 0 none none none⟩).decoder.map.length - 1) ∧
    decodeGo ((HuffmanTree.new [1, 2, 4, 8]).getD
        ⟨0, Node.mk 0 none none none⟩).decoder.map
      ((HuffmanTree.new [1, 2, 4, 8]).getD
        ⟨0, Node.mk 0 none none none⟩).decoder.map.length 0 ([false] ++ [])
      = some (3, []) :=
  ⟨(@decoder_table_wellformed [1, 2, 4, 8] ((HuffmanTree.new [1, 2, 4, 8]).getD ⟨0, Node.mk 0 none none none⟩) (by rfl)).1 0 6 (by rfl),
   (@decoder_table_wellformed [1, 2, 4, 8] ((HuffmanTree.new [1, 2, 4, 8]).getD ⟨0, Node.mk 0 none none none⟩) (by rfl)).2 3 [false] [] (by decide)⟩

end RC

namespace RC

/-! ## Kraft sums and assignment costs -/

lemma kraftSum_cons (l : Nat) (ls : List Nat) :
    kraftSum (l :: ls) = ((1 : ℚ)/2)^l + kraftSum ls := by
  simp [kraftSum]

lemma kraftSum_perm {ls ls' : List Nat} (h : ls.Perm ls') : kraftSum ls = kraftSum ls' :=
  (h.map _).sum_eq

lemma kraftSum_nonneg (ls : List Nat) : 0 ≤ kraftSum ls := by
  induction ls with
  | nil => exact le_refl 0
  | cons l ls ih =>
    rw [kraftSum_cons]
    have h1 : (0:ℚ) < ((1:ℚ)/2)^l := by positivity
    linarith

lemma kraftSum_pos {ls : List Nat} (h : ls ≠ []) : 0 < kraftSum ls := by
  cases ls with
  | nil => exact absurd rfl h
  | cons l ls =>
    rw [kraftSum_cons]
    have h1 : (0:ℚ) < ((1:ℚ)/2)^l := by positivity
    have h2 := kraftSum_nonneg ls
    linarith

/-- With at least two codewords, a Kraft sum `≤ 1` forces every length to be
positive (an empty codeword would already exhaust the budget). -/
lemma kraft_lens_pos {ls : List Nat} (hlen : 2 ≤ ls.length) (hk : kraftSum ls ≤ 1) :
    ∀ l ∈ ls, 1 ≤ l := by
  intro l hl
  by_contra hc
  have hl0 : l = 0 := by omega
  subst hl0
  obtain ⟨r1, r2, hsplit⟩ := List.append_of_mem hl
  subst hsplit
  have hperm : (r1 ++ 0 :: r2).Perm (0 :: (r1 ++ r2)) := List.perm_middle
  rw [kraftSum_perm hperm, kraftSum_cons] at hk
  have hne : r1 ++ r2 ≠ [] := by
    intro hc2
    have h1 : r1 = [] ∧ r2 = [] := List.append_eq_nil.mp hc2
    rw [h1.1, h1.2] at hlen
    simp at hlen
  have := kraftSum_pos hne
  simp at hk
  linarith

lemma kraftN_cons (M l : Nat) (ls : List Nat) :
    kraftN M (l :: ls) = 2 ^ (M - l) + kraftN M ls := by
  simp [kraftN]

lemma kraftN_append (M : Nat) (ls1 ls2 : List Nat) :
    kraftN M (ls1 ++ ls2) = kraftN M ls1 + kraftN M ls2 := by
  simp [kraftN]

lemma kraftN_even {M : Nat} {ls : List Nat} (h : ∀ l ∈ ls, l < M) : 2 ∣ kraftN M ls := by
  apply List.dvd_sum
  intro x hx
  obtain ⟨l, hl, hxe⟩ := List.mem_map.mp hx
  rw [← hxe]
  have hml : M - l ≠ 0 := by
    have := h l hl
    omega
  exact dvd_pow_self 2 hml

lemma kraftSum_eq_kraftN {M : Nat} : ∀ {ls : List Nat}, (∀ l ∈ ls, l ≤ M) →
    kraftSum ls * 2 ^ M = (kraftN M ls : ℚ) := by
  intro ls
  induction ls with
  | nil => simp [kraftSum, kraftN]
  | cons l ls ih =>
    intro h
    have hl : l ≤ M := h l (by simp)
    have ih' := ih (fun x hx => h x (List.mem_cons_of_mem _ hx))
    rw [kraftSum_cons, kraftN_cons]
    push_cast
    rw [add_mul, ih']
    congr 1
    have h2l : (2:ℚ)^l ≠ 0 := by positivity
    rw [div_pow, one_pow, div_mul_eq_mul_div, one_mul, div_eq_iff h2l, ← pow_add]
    congr 1
    omega

lemma kraftSum_le_one_iff {M : Nat} {ls : List Nat} (h : ∀ l ∈ ls, l ≤ M) :
    kraftSum ls ≤ 1 ↔ kraftN M ls ≤ 2 ^ M := by
  have he := kraftSum_eq_kraftN h
  have h2 : (0:ℚ) < 2^M := by positivity
  constructor
  · intro hk
    have h3 : kraftSum ls * 2^M ≤ 1 * 2^M :=
      mul_le_mul_of_nonneg_right hk (le_of_lt h2)
    rw [he, one_mul] at h3
    exact_mod_cast h3
  · intro hk
    have h3 : kraftSum ls * 2^M ≤ 1 * 2^M := by
      rw [he, one_mul]
      exact_mod_cast hk
    exact (mul_le_mul_right h2).mp h3

lemma maxLen_cons (x : Nat) (ls : List Nat) : maxLen (x :: ls) = max x (maxLen ls) := rfl

lemma le_maxLen {ls : List Nat} : ∀ l ∈ ls, l ≤ maxLen ls := by
  induction ls with
  | nil => intro l h; cases h
  | cons x ls ih =>
    intro l hl
    rw [maxLen_cons]
    rcases List.mem_cons.mp hl with h | h
    · subst h
      exact le_max_left _ _
    · exact le_trans (ih l h) (le_max_right _ _)

lemma maxLen_mem {ls : List Nat} (h : ls ≠ []) : maxLen ls ∈ ls := by
  induction ls with
  | nil => exact absurd rfl h
  | cons x ls ih =>
    rw [maxLen_cons]
    cases ls with
    | nil => simp [maxLen]
    | cons y ls' =>
      rcases le_total (maxLen (y :: ls')) x with hle | hle
      · rw [max_eq_left hle]
        simp
      · rw [max_eq_right hle]
        exact List.mem_cons_of_mem _ (ih (by simp))

lemma costP_nil : costP [] = 0 := rfl

lemma costP_cons (x : Nat × Nat) (p : List (Nat × Nat)) :
    costP (x :: p) = x.1 * x.2 + costP p := by
  simp [costP]

lemma costP_append (p q : List (Nat × Nat)) : costP (p ++ q) = costP p + costP q := by
  simp [costP]

lemma costP_perm {p q : List (Nat × Nat)} (h : p.Perm q) : costP p = costP q :=
  (h.map _).sum_eq

lemma swap_cost_le {w1 l1 w2 l2 : Nat} (hw : w1 ≤ w2) (hl : l1 ≤ l2) :
    w1 * l2 + w2 * l1 ≤ w1 * l1 + w2 * l2 := by
  obtain ⟨d, rfl⟩ : ∃ d, l2 = l1 + d := ⟨l2 - l1, by omega⟩
  have h1 : w1 * d ≤ w2 * d := Nat.mul_le_mul_right d hw
  calc w1 * (l1 + d) + w2 * l1 = w1 * l1 + w2 * l1 + w1 * d := by ring
    _ ≤ w1 * l1 + w2 * l1 + w2 * d := by omega
    _ = w1 * l1 + w2 * (l1 + d) := by ring

/-- Halving one codeword slot: two codewords of length `L` cost the same
Kraft budget as one of length `L - 1`. -/
lemma kraft_contract {L : Nat} (hL : 1 ≤ L) (ls : List Nat) :
    kraftSum ((L - 1) :: ls) = kraftSum (L :: L :: ls) := by
  rw [kraftSum_cons, kraftSum_cons, kraftSum_cons]
  have h : ((1:ℚ)/2)^(L-1) = (1/2)^L + (1/2)^L := by
    obtain ⟨K, rfl⟩ : ∃ K, L = K + 1 := ⟨L - 1, by omega⟩
    simp [pow_succ]
    ring
  rw [h]
  ring

/-- Parity argument: if the maximum length `M` occurs exactly once, the Kraft
sum stays `≤ 1` after shortening that codeword by one bit. -/
lemma shorten_kraft {A B : List Nat} {M : Nat} (hM : 1 ≤ M)
    (hmaxA : ∀ l ∈ A, l ≤ M) (hmaxB : ∀ l ∈ B, l ≤ M)
    (hcount : (A ++ M :: B).count M = 1)
    (hk : kraftSum (A ++ M :: B) ≤ 1) :
    kraftSum (A ++ (M - 1) :: B) ≤ 1 := by
  have hmem : ∀ l ∈ A ++ M :: B, l ≤ M := by
    intro l hl
    rcases List.mem_append.mp hl with h | h
    · exact hmaxA l h
    · rcases List.mem_cons.mp h with h | h
      · omega
      · exact hmaxB l h
  have hmem' : ∀ l ∈ A ++ (M - 1) :: B, l ≤ M := by
    intro l hl
    rcases List.mem_append.mp hl with h | h
    · exact hmaxA l h
    · rcases List.mem_cons.mp h with h | h
      · omega
      · exact hmaxB l h
  rw [kraftSum_le_one_iff hmem] at hk
  rw [kraftSum_le_one_iff hmem']
  have hcA : A.count M = 0 ∧ B.count M = 0 := by
    rw [List.count_append, List.count_cons] at hcount
    simp at hcount
    omega
  have hAlt : ∀ l ∈ A, l < M := by
    intro l hl
    have h1 := hmaxA l hl
    have h2 : l ≠ M := by
      intro hc
      subst hc
      have := List.count_pos_iff.mpr hl
      omega
    omega
  have hBlt : ∀ l ∈ B, l < M := by
    intro l hl
    have h1 := hmaxB l hl
    have h2 : l ≠ M := by
      intro hc
      subst hc
      have := List.count_pos_iff.mpr hl
      omega
    omega
  have hevA := kraftN_even hAlt
  have hevB := kraftN_even hBlt
  have hev2 : 2 ∣ 2 ^ M := dvd_pow_self 2 (by omega)
  rw [kraftN_append, kraftN_cons] at hk ⊢
  have e1 : M - M = 0 := by omega
  have e2 : M - (M - 1) = 1 := by omega
  rw [e1] at hk
  rw [e2]
  simp only [pow_zero, pow_one] at hk ⊢
  omega

end RC

namespace RC

/-! ## Exchange argument: normalising a competing length assignment -/

/-- Swap the first slot's length with an occurrence of `M` inside `rest`:
weights stay in place, the multiset of lengths is unchanged, and since the
first weight is minimal among `rest` the total cost does not increase. -/
lemma swap_head_max {a la b lb M : Nat} {rest : List (Nat × Nat)}
    (har : ∀ w ∈ rest.map Prod.fst, a ≤ w) (hla : la ≤ M)
    (hM : M ∈ rest.map Prod.snd) :
    ∃ rest' : List (Nat × Nat), rest'.map Prod.fst = rest.map Prod.fst ∧
      (((a, M) :: (b, lb) :: rest').map Prod.snd).Perm
        (((a, la) :: (b, lb) :: rest).map Prod.snd) ∧
      costP ((a, M) :: (b, lb) :: rest') ≤ costP ((a, la) :: (b, lb) :: rest) := by
  obtain ⟨q, hqmem, hq⟩ := List.mem_map.mp hM
  obtain ⟨r1, r2, rfl⟩ := List.append_of_mem hqmem
  refine ⟨r1 ++ (q.1, la) :: r2, by simp, ?_, ?_⟩
  · simp only [List.map_cons, List.map_append]
    rw [hq]
    have h1 : (r1.map Prod.snd ++ la :: r2.map Prod.snd).Perm
        (la :: (r1.map Prod.snd ++ r2.map Prod.snd)) := List.perm_middle
    have h2 : (r1.map Prod.snd ++ M :: r2.map Prod.snd).Perm
        (M :: (r1.map Prod.snd ++ r2.map Prod.snd)) := List.perm_middle
    have p3 : (M :: lb :: la :: (r1.map Prod.snd ++ r2.map Prod.snd)).Perm
        (la :: lb :: M :: (r1.map Prod.snd ++ r2.map Prod.snd)) := by
      refine (List.Perm.swap lb M _).trans ?_
      refine (List.Perm.cons lb (List.Perm.swap la M _)).trans ?_
      exact List.Perm.swap la lb _
    exact ((h1.cons lb).cons M).trans (p3.trans ((h2.symm.cons lb).cons la))
  · simp only [costP_cons, costP_append, hq]
    have hs := swap_cost_le (har q.1 (List.mem_map.mpr ⟨q, hqmem, rfl⟩)) hla
    omega

/-- Same swap for the second slot, when the first already carries length `M`. -/
lemma swap_second_max {a b lb M : Nat} {rest : List (Nat × Nat)}
    (hbr : ∀ w ∈ rest.map Prod.fst, b ≤ w) (hlb : lb ≤ M)
    (hM : M ∈ rest.map Prod.snd) :
    ∃ rest' : List (Nat × Nat), rest'.map Prod.fst = rest.map Prod.fst ∧
      (((a, M) :: (b, M) :: rest').map Prod.snd).Perm
        (((a, M) :: (b, lb) :: rest).map Prod.snd) ∧
      costP ((a, M) :: (b, M) :: rest') ≤ costP ((a, M) :: (b, lb) :: rest) := by
  obtain ⟨q, hqmem, hq⟩ := List.mem_map.mp hM
  obtain ⟨r1, r2, rfl⟩ := List.append_of_mem hqmem
  refine ⟨r1 ++ (q.1, lb) :: r2, by simp, ?_, ?_⟩
  · simp only [List.map_cons, List.map_append]
    rw [hq]
    have h1 : (r1.map Prod.snd ++ lb :: r2.map Prod.snd).Perm
        (lb :: (r1.map Prod.snd ++ r2.map Prod.snd)) := List.perm_middle
    have h2 : (r1.map Prod.snd ++ M :: r2.map Prod.snd).Perm
        (M :: (r1.map Prod.snd ++ r2.map Prod.snd)) := List.perm_middle
    refine List.Perm.cons M ?_
    refine ((h1.cons M).trans ?_).trans (h2.symm.cons lb)
    exact List.Perm.swap lb M _
  · simp only [costP_cons, costP_append, hq]
    have hs := swap_cost_le (hbr q.1 (List.mem_map.mpr ⟨q, hqmem, rfl⟩)) hlb
    omega

end RC

namespace RC

/-- When the two cheapest weights head the list and the maximal length `M`
occurs at least twice, swapping lengths moves both occurrences of `M` onto
the two cheapest weights without increasing the cost. -/
lemma select_two_max {a la b lb M : Nat} {rest : List (Nat × Nat)}
    (har : ∀ w ∈ rest.map Prod.fst, a ≤ w)
    (hbr : ∀ w ∈ rest.map Prod.fst, b ≤ w)
    (hla : la ≤ M) (hlb : lb ≤ M)
    (hcnt : 2 ≤ (((a, la) :: (b, lb) :: rest).map Prod.snd).count M) :
    ∃ rest' : List (Nat × Nat),
      rest'.map Prod.fst = rest.map Prod.fst ∧
      (((a, M) :: (b, M) :: rest').map Prod.snd).Perm
        (((a, la) :: (b, lb) :: rest).map Prod.snd) ∧
      costP ((a, M) :: (b, M) :: rest') ≤ costP ((a, la) :: (b, lb) :: rest) := by
  by_cases h1 : la = M
  · subst h1
    by_cases h2 : lb = la
    · subst h2
      exact ⟨rest, rfl, List.Perm.refl _, le_refl _⟩
    · have hmem : la ∈ rest.map Prod.snd := by
        simp only [List.map_cons, List.count_cons, beq_iff_eq] at hcnt
        rw [if_pos trivial, if_neg h2] at hcnt
        exact List.count_pos_iff.mp (by omega)
      obtain ⟨rest', hw, hp, hc⟩ := swap_second_max (a := a) hbr hlb hmem
      exact ⟨rest', hw, hp, hc⟩
  · by_cases h2 : lb = M
    · subst h2
      have hmem : lb ∈ rest.map Prod.snd := by
        simp only [List.map_cons, List.count_cons, beq_iff_eq] at hcnt
        rw [if_pos trivial, if_neg h1] at hcnt
        exact List.count_pos_iff.mp (by omega)
      obtain ⟨rest', hw, hp, hc⟩ := @swap_head_max _ _ b lb _ _ har hla hmem
      exact ⟨rest', hw, hp, hc⟩
    · have hmemx : M ∈ rest.map Prod.snd := by
        simp only [List.map_cons, List.count_cons, beq_iff_eq] at hcnt
        rw [if_neg h2, if_neg h1] at hcnt
        exact List.count_pos_iff.mp (by omega)
      obtain ⟨rest1, hw1, hp1, hc1⟩ := @swap_head_max _ _ b lb _ _ har hla hmemx
      have hcnt1 : 0 < (rest1.map Prod.snd).count M := by
        have hce := hp1.count_eq M
        simp only [List.map_cons, List.count_cons, beq_iff_eq] at hce hcnt
        rw [if_pos trivial, if_neg h2, if_neg h1] at hce
        rw [if_neg h2, if_neg h1] at hcnt
        omega
      have hmem1 : M ∈ rest1.map Prod.snd := List.count_pos_iff.mp hcnt1
      have hbr1 : ∀ w ∈ rest1.map Prod.fst, b ≤ w := by
        rw [hw1]
        exact hbr
      obtain ⟨rest', hw2, hp2, hc2⟩ := swap_second_max (a := a) hbr1 hlb hmem1
      exact ⟨rest', hw2.trans hw1, hp2.trans hp1, le_trans hc2 hc1⟩

end RC

namespace RC

/-- Any competing assignment with Kraft sum `≤ 1` can be rewritten, without
raising the cost or moving the weights, so that its maximal length occurs at
least twice. (Induction on the total of the lengths; a uniquely-occurring
maximal length is shortened by the parity argument.) -/
lemma normalize_max : ∀ (n : Nat) (p : List (Nat × Nat)),
    (p.map Prod.snd).sum ≤ n → 2 ≤ p.length → kraftSum (p.map Prod.snd) ≤ 1 →
    ∃ q : List (Nat × Nat), q.map Prod.fst = p.map Prod.fst ∧
      kraftSum (q.map Prod.snd) ≤ 1 ∧ costP q ≤ costP p ∧
      2 ≤ (q.map Prod.snd).count (maxLen (q.map Prod.snd)) := by
  intro n
  induction n with
  | zero =>
    intro p hsum hlen hk
    exfalso
    have hall := @kraft_lens_pos (p.map Prod.snd) (by simpa using hlen) hk
    cases p with
    | nil => simp at hlen
    | cons x p' =>
      have h1 : 1 ≤ x.2 := hall x.2 (by simp)
      simp at hsum
      omega
  | succ n ih =>
    intro p hsum hlen hk
    by_cases hc : 2 ≤ (p.map Prod.snd).count (maxLen (p.map Prod.snd))
    · exact ⟨p, rfl, hk, le_refl _, hc⟩
    · have hall := @kraft_lens_pos (p.map Prod.snd) (by simpa using hlen) hk
      have hne : p.map Prod.snd ≠ [] := by
        cases p with
        | nil => simp at hlen
        | cons x p' => simp
      set M := maxLen (p.map Prod.snd) with hMdef
      have hmem : M ∈ p.map Prod.snd := maxLen_mem hne
      have hcnt1 : (p.map Prod.snd).count M = 1 := by
        have hpos := List.count_pos_iff.mpr hmem
        omega
      have hM1 : 1 ≤ M := hall M hmem
      obtain ⟨q0, hq0mem, hq0⟩ := List.mem_map.mp hmem
      obtain ⟨p1, p2, rfl⟩ := List.append_of_mem hq0mem
      have hmap2 : (p1 ++ q0 :: p2).map Prod.snd
          = p1.map Prod.snd ++ M :: p2.map Prod.snd := by
        simp [hq0]
      have hmap2' : (p1 ++ (q0.1, M - 1) :: p2).map Prod.snd
          = p1.map Prod.snd ++ (M - 1) :: p2.map Prod.snd := by
        simp
      have hmaxA : ∀ l ∈ p1.map Prod.snd, l ≤ M := by
        intro l hl
        apply le_maxLen
        rw [hmap2] at hMdef ⊢
        exact List.mem_append.mpr (Or.inl hl)
      have hmaxB : ∀ l ∈ p2.map Prod.snd, l ≤ M := by
        intro l hl
        apply le_maxLen
        rw [hmap2] at hMdef ⊢
        exact List.mem_append.mpr (Or.inr (List.mem_cons_of_mem _ hl))
      have hkfact : kraftSum ((p1 ++ (q0.1, M - 1) :: p2).map Prod.snd) ≤ 1 := by
        rw [hmap2']
        apply shorten_kraft hM1 hmaxA hmaxB
        · rw [← hmap2]
          exact hcnt1
        · rw [← hmap2]
          exact hk
      have hsum' : ((p1 ++ (q0.1, M - 1) :: p2).map Prod.snd).sum ≤ n := by
        rw [hmap2']
        rw [hmap2] at hsum
        simp at hsum ⊢
        omega
      have hlen' : 2 ≤ (p1 ++ (q0.1, M - 1) :: p2).length := by
        simp at hlen ⊢
        omega
      obtain ⟨q, hw, hkq, hcq, hcnt⟩ := ih (p1 ++ (q0.1, M - 1) :: p2) hsum' hlen' hkfact
      refine ⟨q, ?_, hkq, ?_, hcnt⟩
      · rw [hw]
        simp
      · refine le_trans hcq ?_
        simp only [costP_append, costP_cons]
        have hmul : q0.1 * (M - 1) ≤ q0.1 * q0.2 := by
          rw [hq0]
          exact Nat.mul_le_mul_left _ (by omega)
        omega

end RC

namespace RC

/-! ## Kraft sum and weighted path length of a well-formed tree -/

lemma kraftSum_append (ls1 ls2 : List Nat) :
    kraftSum (ls1 ++ ls2) = kraftSum ls1 + kraftSum ls2 := by
  simp [kraftSum]

lemma kraftSum_map_succ (ps : List (Nat × List Bool)) (b : Bool) :
    kraftSum ((ps.map (fun p => (p.1, b :: p.2))).map (fun p => p.2.length))
      = (1/2) * kraftSum (ps.map (fun p => p.2.length)) := by
  induction ps with
  | nil => simp [kraftSum]
  | cons p ps ih =>
    simp only [List.map_cons, kraftSum_cons, List.length_cons] at ih ⊢
    rw [ih, pow_succ]
    ring

/-- The codeword lengths of a well-formed tree satisfy Kraft with equality. -/
lemma kraft_paths {counts : List Nat} : ∀ {t : Node}, WFC counts t →
    kraftSum (t.paths.map (fun p => p.2.length)) = 1 := by
  intro t h
  induction h with
  | leaf v => simp [Node.paths, kraftSum]
  | node hl hr ihl ihr =>
    simp only [Node.paths, List.map_append]
    rw [kraftSum_append, kraftSum_map_succ, kraftSum_map_succ, ihl, ihr]
    norm_num

lemma sum_weight_succ (c : Nat → Nat) (b : Bool) (ps : List (Nat × List Bool)) :
    ((ps.map (fun p => (p.1, b :: p.2))).map (fun p => c p.1 * p.2.length)).sum
      = (ps.map (fun p => c p.1 * p.2.length)).sum + (ps.map (fun p => c p.1)).sum := by
  induction ps with
  | nil => rfl
  | cons p ps ih =>
    simp only [List.map_cons, List.sum_cons, List.length_cons, ih]
    ring

lemma map_fst_weight (c : Nat → Nat) (b : Bool) (ps : List (Nat × List Bool)) :
    ((ps.map (fun p => (p.1, b :: p.2))).map (fun p => c p.1)).sum
      = (ps.map (fun p => c p.1)).sum := by
  rw [List.map_map]
  rfl

/-- The root count of a well-formed tree is the total weight of its leaves. -/
lemma paths_count_eq {counts : List Nat} : ∀ {t : Node}, WFC counts t →
    (t.paths.map (fun p => counts.getD p.1 0)).sum = t.count := by
  intro t h
  induction h with
  | leaf v => simp [Node.paths, Node.count]
  | @node l r hl hr ihl ihr =>
    show ((l.paths.map (fun p => (p.1, true :: p.2))
        ++ r.paths.map (fun p => (p.1, false :: p.2))).map
          (fun p => counts.getD p.1 0)).sum = l.count + r.count
    rw [List.map_append, List.sum_append,
      map_fst_weight (fun v => counts.getD v 0) true l.paths,
      map_fst_weight (fun v => counts.getD v 0) false r.paths, ihl, ihr]

/-- The internal-node count total equals the weighted external path length. -/
lemma internalSum_eq_cost {counts : List Nat} : ∀ {t : Node}, WFC counts t →
    t.internalSum = (t.paths.map (fun p => counts.getD p.1 0 * p.2.length)).sum := by
  intro t h
  induction h with
  | leaf v => simp [Node.paths, Node.internalSum]
  | @node l r hl hr ihl ihr =>
    show l.count + r.count + l.internalSum + r.internalSum
        = ((l.paths.map (fun p => (p.1, true :: p.2))
          ++ r.paths.map (fun p => (p.1, false :: p.2))).map
            (fun p => counts.getD p.1 0 * p.2.length)).sum
    rw [List.map_append, List.sum_append,
      sum_weight_succ (fun v => counts.getD v 0) true l.paths,
      sum_weight_succ (fun v => counts.getD v 0) false r.paths,
      ← ihl, ← ihr, paths_count_eq hl, paths_count_eq hr]
    omega

end RC

namespace RC

/-- Optimality of the merge loop: the internal-count total of the resulting
tree (its weighted path length) is at most the cost of any assignment of
lengths to the same multiset of weights whose Kraft sum is `≤ 1`, plus the
internal totals already accumulated inside the heap's subtrees. -/
lemma mergeLoop_optimal : ∀ (fuel : Nat) (heap : List Node) (pairs : List (Nat × Nat)),
    heap ≠ [] → heap.length ≤ fuel + 1 →
    (pairs.map Prod.fst).Perm (heap.map Node.count) →
    kraftSum (pairs.map Prod.snd) ≤ 1 →
    ∀ root, mergeLoop fuel heap = [root] →
    root.internalSum ≤ costP pairs + (heap.map Node.internalSum).sum := by
  intro fuel
  induction fuel with
  | zero =>
    intro heap pairs hne hlen hperm hk root hroot
    obtain ⟨n, rfl⟩ : ∃ n, heap = [n] := by
      cases heap with
      | nil => exact absurd rfl hne
      | cons a t =>
        cases t with
        | nil => exact ⟨a, rfl⟩
        | cons b t' => simp at hlen
    have h2 : ([n] : List Node) = [root] := hroot
    simp at h2
    subst h2
    simp
  | succ fuel ih =>
    intro heap pairs hne hlen hperm hk root hroot
    by_cases hsmall : heap.length ≤ 1
    · obtain ⟨n, rfl⟩ : ∃ n, heap = [n] := by
        cases heap with
        | nil => exact absurd rfl hne
        | cons a t =>
          cases t with
          | nil => exact ⟨a, rfl⟩
          | cons b t' => simp at hsmall
      have e : mergeLoop (fuel + 1) [n]
          = if ([n] : List Node).length ≤ 1 then [n]
            else match extractMin [n] with
              | none => [n]
              | some (left, h1) =>
                match extractMin h1 with
                | none => [n]
                | some (right, h2) =>
                  mergeLoop fuel (h2 ++ [Node.mk (left.count + right.count) none
                    (some left) (some right)]) := rfl
      rw [e, if_pos (by simp)] at hroot
      simp at hroot
      subst hroot
      simp
    · obtain ⟨left, h1, hL⟩ := extractMin_isSome hne
      have hperm1 := extractMin_perm hL
      have hlen1 : h1.length + 1 = heap.length := by
        have := hperm1.length_eq
        simp at this
        omega
      have hne1 : h1 ≠ [] := by
        intro hc
        rw [hc] at hlen1
        simp at hlen1
        omega
      obtain ⟨right, h2, hR⟩ := extractMin_isSome hne1
      have hperm2 := extractMin_perm hR
      have hlen2 : h2.length + 1 = h1.length := by
        have := hperm2.length_eq
        simp at this
        omega
      have hp3 : heap.Perm (left :: right :: h2) := hperm1.trans (hperm2.cons left)
      have hcperm : (pairs.map Prod.fst).Perm
          (left.count :: right.count :: h2.map Node.count) :=
        hperm.trans (hp3.map Node.count)
      have hamem : left.count ∈ pairs.map Prod.fst := (hcperm.mem_iff).mpr (by simp)
      obtain ⟨pa, hpamem, hpa⟩ := List.mem_map.mp hamem
      obtain ⟨s1, t1, hsp1⟩ := List.append_of_mem hpamem
      have hsplit1 : pairs.Perm (pa :: (s1 ++ t1)) := by
        rw [hsp1]
        exact List.perm_middle
      have hw1 : ((s1 ++ t1).map Prod.fst).Perm
          (right.count :: h2.map Node.count) := by
        have h1p := hsplit1.map Prod.fst
        rw [List.map_cons, hpa] at h1p
        exact (h1p.symm.trans hcperm).cons_inv
      have hbmem : right.count ∈ (s1 ++ t1).map Prod.fst :=
        (hw1.mem_iff).mpr (by simp)
      obtain ⟨pb, hpbmem, hpb⟩ := List.mem_map.mp hbmem
      obtain ⟨s2, t2, hsp2⟩ := List.append_of_mem hpbmem
      have hsplit2 : (s1 ++ t1).Perm (pb :: (s2 ++ t2)) := by
        rw [hsp2]
        exact List.perm_middle
      set rest := s2 ++ t2 with hrestdef
      have hw2 : (rest.map Prod.fst).Perm (h2.map Node.count) := by
        have h2p := hsplit2.map Prod.fst
        rw [List.map_cons, hpb] at h2p
        exact (h2p.symm.trans hw1).cons_inv
      have e1 : pa = (left.count, pa.2) := by
        rw [← hpa]
      have e2 : pb = (right.count, pb.2) := by
        rw [← hpb]
      have hpairsperm : pairs.Perm
          ((left.count, pa.2) :: (right.count, pb.2) :: rest) := by
        have hchain : pairs.Perm (pa :: pb :: rest) := hsplit1.trans (hsplit2.cons pa)
        rw [← e1, ← e2]
        exact hchain
      have hminL := extractMin_min hL
      have hminR := extractMin_min hR
      have harest : ∀ w ∈ rest.map Prod.fst, left.count ≤ w := by
        intro w hw
        obtain ⟨m, hm, hmc⟩ := List.mem_map.mp ((hw2.mem_iff).mp hw)
        rw [← hmc]
        exact hminL m ((hperm1.mem_iff).mpr (List.mem_cons_of_mem _
          ((hperm2.mem_iff).mpr (List.mem_cons_of_mem _ hm))))
      have hbrest : ∀ w ∈ rest.map Prod.fst, right.count ≤ w := by
        intro w hw
        obtain ⟨m, hm, hmc⟩ := List.mem_map.mp ((hw2.mem_iff).mp hw)
        rw [← hmc]
        exact hminR m ((hperm2.mem_iff).mpr (List.mem_cons_of_mem _ hm))
      have hk0 : kraftSum (((left.count, pa.2) :: (right.count, pb.2) :: rest).map
          Prod.snd) ≤ 1 := by
        rw [← kraftSum_perm (hpairsperm.map Prod.snd)]
        exact hk
      obtain ⟨q, hqw, hqk, hqc, hqcnt⟩ := normalize_max
        ((((left.count, pa.2) :: (right.count, pb.2) :: rest).map Prod.snd).sum)
        ((left.count, pa.2) :: (right.count, pb.2) :: rest) (le_refl _) (by simp) hk0
      cases q with
      | nil => simp at hqw
      | cons q1 qtl =>
        cases qtl with
        | nil => simp at hqw
        | cons q2 qt =>
          obtain ⟨w1, l1⟩ := q1
          obtain ⟨w2, l2⟩ := q2
          simp only [List.map_cons, List.cons.injEq] at hqw
          obtain ⟨hw1e, hw2e, hqt⟩ := hqw
          subst hw1e
          subst hw2e
          set M := maxLen (((left.count, l1) :: (right.count, l2) :: qt).map Prod.snd)
            with hMdef
          have hla : l1 ≤ M := by
            rw [hMdef]
            exact le_maxLen l1 (by simp)
          have hlb : l2 ≤ M := by
            rw [hMdef]
            exact le_maxLen l2 (by simp)
          have harq : ∀ w ∈ qt.map Prod.fst, left.count ≤ w := by
            rw [hqt]
            exact harest
          have hbrq : ∀ w ∈ qt.map Prod.fst, right.count ≤ w := by
            rw [hqt]
            exact hbrest
          obtain ⟨rest2, hw2q, hperm2q, hcost2q⟩ := select_two_max harq hbrq hla hlb hqcnt
          have hMmem : M ∈ ((left.count, l1) :: (right.count, l2) :: qt).map Prod.snd := by
            rw [hMdef]
            exact maxLen_mem (by simp)
          have hM1 : 1 ≤ M :=
            @kraft_lens_pos (((left.count, l1) :: (right.count, l2) :: qt).map
              Prod.snd) (by simp) hqk M hMmem
          have hkraft2 : kraftSum (((left.count + right.count, M - 1) :: rest2).map
              Prod.snd) ≤ 1 := by
            have e : ((left.count + right.count, M - 1) :: rest2).map Prod.snd
                = (M - 1) :: rest2.map Prod.snd := by simp
            have e3 : (M :: M :: rest2.map Prod.snd)
                = (((left.count, M) :: (right.count, M) :: rest2).map Prod.snd) := by
              simp
            rw [e, kraft_contract hM1, e3, kraftSum_perm hperm2q]
            exact hqk
          have hrw : rest2.map Prod.fst = rest.map Prod.fst := by
            rw [hw2q, hqt]
          have hwnew : (((left.count + right.count, M - 1) :: rest2).map Prod.fst).Perm
              ((h2 ++ [Node.mk (left.count + right.count) none (some left)
                (some right)]).map Node.count) := by
            have e : ((left.count + right.count, M - 1) :: rest2).map Prod.fst
                = (left.count + right.count) :: rest2.map Prod.fst := by simp
            have e4 : (h2 ++ [Node.mk (left.count + right.count) none (some left)
                  (some right)]).map Node.count
                = h2.map Node.count ++ [left.count + right.count] := by
              rw [List.map_append]
              rfl
            rw [e, e4, hrw]
            exact ((hw2.cons _)).trans (List.perm_append_singleton _ _).symm
          rw [mergeLoop_step hsmall hL hR] at hroot
          have hih := ih (h2 ++ [Node.mk (left.count + right.count) none (some left)
              (some right)]) ((left.count + right.count, M - 1) :: rest2)
            (by simp) (by simp; omega) hwnew hkraft2 root hroot
          simp only [costP_cons, List.map_append, List.sum_append, List.map_cons,
            List.sum_cons, List.map_nil, List.sum_nil] at hih
          have hmint : (Node.mk (left.count + right.count) none (some left)
              (some right)).internalSum
              = left.count + right.count + left.internalSum + right.internalSum := rfl
          rw [hmint] at hih
          have hheapsum : (heap.map Node.internalSum).sum
              = left.internalSum + right.internalSum
                + (h2.map Node.internalSum).sum := by
            rw [(hp3.map Node.internalSum).sum_eq]
            simp only [List.map_cons, List.sum_cons]
            omega
          have hc1 : costP pairs
              = costP ((left.count, pa.2) :: (right.count, pb.2) :: rest) :=
            costP_perm hpairsperm
          simp only [costP_cons] at hcost2q hqc hc1
          have hdist : (left.count + right.count) * (M - 1)
                + (left.count + right.count)
              = left.count * M + right.count * M := by
            obtain ⟨K, hK⟩ : ∃ K, M = K + 1 := ⟨M - 1, by omega⟩
            rw [hK]
            simp
            ring
          rw [hheapsum, hc1]
          omega

end RC

namespace RC

/-! ## Bridging the encoder table to the tree's leaf paths -/

lemma self_eq_range_map {α : Type} (A : List α) (d : α) :
    (List.range A.length).map (fun v => A.getD v d) = A := by
  apply List.ext_getElem
  · simp
  · intro i h1 h2
    simp only [List.getElem_map, List.getElem_range]
    rw [List.getD_eq_getElem?_getD, List.getElem?_eq_getElem h2]
    rfl

lemma range_map_perm {α : Type} {N : Nat} {paths : List (Nat × List Bool)}
    (hperm : (paths.map Prod.fst).Perm (List.range N))
    (f : Nat → α) (g : Nat × List Bool → α)
    (hfg : ∀ p ∈ paths, f p.1 = g p) :
    ((List.range N).map f).Perm (paths.map g) := by
  have h1 : ((List.range N).map f).Perm ((paths.map Prod.fst).map f) :=
    (hperm.symm).map f
  rw [List.map_map] at h1
  have h2 : paths.map (f ∘ Prod.fst) = paths.map g :=
    List.map_congr_left (fun p hp => hfg p hp)
  rw [h2] at h1
  exact h1

lemma costP_zip (counts ls : List Nat) (h : ls.length = counts.length) :
    costP (counts.zip ls)
      = ((List.range counts.length).map
          (fun v => counts.getD v 0 * ls.getD v 0)).sum := by
  have e : (counts.zip ls).map (fun q => q.1 * q.2)
      = (List.range counts.length).map (fun v => counts.getD v 0 * ls.getD v 0) := by
    apply List.ext_getElem
    · simp [List.length_zip, h]
    · intro i h1 h2
      have hi1 : i < counts.length := by
        simp at h2
        exact h2
      have hi2 : i < ls.length := by omega
      simp only [List.getElem_map, List.getElem_range, List.getElem_zip]
      rw [List.getD_eq_getElem?_getD, List.getElem?_eq_getElem hi1,
        List.getD_eq_getElem?_getD, List.getElem?_eq_getElem hi2]
      rfl
  unfold costP
  rw [e]

lemma new_mergeLoop {counts : List Nat} {t : HuffmanTree}
    (ht : HuffmanTree.new counts = some t) :
    mergeLoop counts.length (counts.enum.map fun p => Node.mk p.2 (some p.1) none none)
      = [t.nodes] := by
  have hlen : 1 < counts.length := (new_inv ht).1
  have hne : counts.enum.map (fun p => Node.mk p.2 (some p.1) none none) ≠ [] := by
    intro hc
    have h0 : (counts.enum.map (fun p => Node.mk p.2 (some p.1) none none)).length
        = counts.length := by simp
    rw [hc] at h0
    simp only [List.length_nil] at h0
    omega
  have hwfinit : ∀ n ∈ counts.enum.map (fun p => Node.mk p.2 (some p.1) none none),
      WFC counts n := by
    rw [initHeap_eq]
    intro n hn
    obtain ⟨i, _, hi⟩ := List.mem_map.mp hn
    rw [← hi]
    exact WFC.leaf i
  obtain ⟨root, hroot, hwfr, hpr⟩ := mergeLoop_result counts.length
    (counts.enum.map fun p => Node.mk p.2 (some p.1) none none) hne (by simp) hwfinit
  have hsome : HuffmanTree.new counts = some ⟨counts.length, root⟩ := by
    unfold HuffmanTree.new
    rw [if_pos hlen, hroot]
    rfl
  rw [ht] at hsome
  have h2 := Option.some.inj hsome
  rw [hroot, h2]

lemma initHeap_internal_zero (counts : List Nat) :
    ((counts.enum.map fun p => Node.mk p.2 (some p.1) none none).map
      Node.internalSum).sum = 0 := by
  rw [initHeap_eq, List.map_map]
  apply List.sum_eq_zero
  intro x hx
  obtain ⟨i, _, hi⟩ := List.mem_map.mp hx
  rw [← hi]
  rfl

lemma initHeap_counts (counts : List Nat) :
    (counts.enum.map fun p => Node.mk p.2 (some p.1) none none).map Node.count
      = counts := by
  rw [initHeap_eq, List.map_map]
  show (List.range counts.length).map (fun v => counts.getD v 0) = counts
  exact self_eq_range_map counts 0

lemma encoder_map_length {counts : List Nat} {t : HuffmanTree}
    (ht : HuffmanTree.new counts = some t) :
    t.encoder.map.length = counts.length := by
  obtain ⟨hlen, helts, hwf, hperm⟩ := new_inv ht
  show (t.nodes.make_encoder (List.replicate t.elements BitVec.new) []).length = _
  rw [make_encoder_applyPaths hwf, applyPaths_length]
  simp [helts]

lemma encoder_getD_len {counts : List Nat} {t : HuffmanTree}
    (ht : HuffmanTree.new counts = some t) :
    ∀ p ∈ t.nodes.paths, (t.encoder.map.getD p.1 BitVec.new).len = p.2.length := by
  intro p hp
  have he : t.encoder.map[p.1]? = some (BitVec.ofList p.2) := encode_spec ht hp
  have hg : t.encoder.map.getD p.1 BitVec.new = BitVec.ofList p.2 := by
    rw [List.getD_eq_getElem?_getD, he]
    rfl
  rw [hg, (models_ofList p.2).len_eq]

end RC

namespace RC

/-- In the unbounded-count model: for every frequency table `counts` with at
least two symbols, the codeword lengths produced by the encoder built from
`HuffmanTree.new counts` satisfy the Kraft inequality `Σ 2^(-len) ≤ 1`, and
the total cost `Σ counts[v] · len(codeword v)` is minimal among all
codeword-length assignments `ls` over the same symbols whose lengths satisfy
the Kraft inequality.  This does not hold of the program's wrapping `u128`
count arithmetic; see the `u128` variants below. -/
theorem huffman_kraft_and_optimal {counts : List Nat} {t : HuffmanTree}
    (ht : HuffmanTree.new counts = some t) :
    kraftSum (t.encoder.map.map BitVec.len) ≤ 1 ∧
    ∀ ls : List Nat, ls.length = counts.length → kraftSum ls ≤ 1 →
      ((List.range counts.length).map
        (fun v => counts.getD v 0 * (t.encoder.map.getD v BitVec.new).len)).sum
      ≤ ((List.range counts.length).map
        (fun v => counts.getD v 0 * ls.getD v 0)).sum := by
  obtain ⟨hlen, helts, hwf, hperm⟩ := new_inv ht
  have hAlen := encoder_map_length ht
  have hAget := encoder_getD_len ht
  constructor
  · have h0 := congrArg (List.map BitVec.len)
      (self_eq_range_map t.encoder.map BitVec.new)
    have hA : kraftSum (t.encoder.map.map BitVec.len)
        = kraftSum ((List.range counts.length).map
            (fun v => (t.encoder.map.getD v BitVec.new).len)) := by
      rw [← h0, List.map_map, hAlen]
      rfl
    have hkperm := range_map_perm hperm
      (fun v => (t.encoder.map.getD v BitVec.new).len)
      (fun p => p.2.length) hAget
    rw [hA, kraftSum_perm hkperm, kraft_paths hwf]
  · intro ls hlslen hlsk
    have hzf : (counts.zip ls).map Prod.fst = counts :=
      List.map_fst_zip counts ls (by omega)
    have hzs : (counts.zip ls).map Prod.snd = ls :=
      List.map_snd_zip counts ls (by omega)
    have hne : counts.enum.map (fun p => Node.mk p.2 (some p.1) none none) ≠ [] := by
      intro hc
      have h0 : (counts.enum.map (fun p => Node.mk p.2 (some p.1) none none)).length
          = counts.length := by simp
      rw [hc] at h0
      simp only [List.length_nil] at h0
      omega
    have hwperm : (((counts.zip ls).map Prod.fst)).Perm
        ((counts.enum.map (fun p => Node.mk p.2 (some p.1) none none)).map
          Node.count) := by
      rw [hzf, initHeap_counts]
    have hopt := mergeLoop_optimal counts.length
      (counts.enum.map fun p => Node.mk p.2 (some p.1) none none) (counts.zip ls)
      hne (by simp) hwperm (by rw [hzs]; exact hlsk) t.nodes (new_mergeLoop ht)
    rw [initHeap_internal_zero, Nat.add_zero] at hopt
    have hLperm := range_map_perm hperm
      (fun v => counts.getD v 0 * (t.encoder.map.getD v BitVec.new).len)
      (fun p => counts.getD p.1 0 * p.2.length)
      (fun p hp => by
        show counts.getD p.1 0 * (t.encoder.map.getD p.1 BitVec.new).len
          = counts.getD p.1 0 * p.2.length
        rw [hAget p hp])
    rw [hLperm.sum_eq, ← internalSum_eq_cost hwf, ← costP_zip counts ls hlslen]
    exact hopt

/-- The unbounded-model statement at `counts = [1, 2, 4, 8]`, comparing
against the fixed-length competitor `ls = [2, 2, 2, 2]`. -/
theorem huffman_kraft_and_optimal_witness :
    kraftSum (((HuffmanTree.new [1, 2, 4, 8]).getD
        ⟨0, Node.mk 0 none none none⟩).encoder.map.map BitVec.len) ≤ 1 ∧
    ((List.range 4).map (fun v => [1, 2, 4, 8].getD v 0 *
        (((HuffmanTree.new [1, 2, 4, 8]).getD
          ⟨0, Node.mk 0 none none none⟩).encoder.map.getD v BitVec.new).len)).sum
      ≤ ((List.range 4).map
          (fun v => [1, 2, 4, 8].getD v 0 * [2, 2, 2, 2].getD v 0)).sum := by
  have h := @huffman_kraft_and_optimal [1, 2, 4, 8] ((HuffmanTree.new [1, 2, 4, 8]).getD ⟨0, Node.mk 0 none none none⟩) (by rfl)
  refine ⟨h.1, ?_⟩
  have hk : kraftSum [2, 2, 2, 2] ≤ 1 := by
    norm_num [kraftSum]
  exact h.2 [2, 2, 2, 2] (by rfl) hk

end RC

namespace RC

/-! ## Relating the three count-arithmetic models of the merge loop -/

lemma mergeLoop_small {fuel : Nat} {heap : List Node} (h : heap.length ≤ 1) :
    mergeLoop (fuel + 1) heap = heap := by
  have e : mergeLoop (fuel + 1) heap
      = if heap.length ≤ 1 then heap
        else
          match extractMin heap with
          | none => heap
          | some (left, h1) =>
            match extractMin h1 with
            | none => heap
            | some (right, h2) =>
              mergeLoop fuel
                (h2 ++ [Node.mk (left.count + right.count) none (some left)
                  (some right)]) := rfl
  rw [e, if_pos h]

lemma mergeLoopW_small {fuel : Nat} {heap : List Node} (h : heap.length ≤ 1) :
    mergeLoopW (fuel + 1) heap = heap := by
  have e : mergeLoopW (fuel + 1) heap
      = if heap.length ≤ 1 then heap
        else
          match extractMin heap with
          | none => heap
          | some (left, h1) =>
            match extractMin h1 with
            | none => heap
            | some (right, h2) =>
              mergeLoopW fuel
                (h2 ++ [Node.mk ((left.count + right.count) % U128) none (some left)
                  (some right)]) := rfl
  rw [e, if_pos h]

lemma mergeLoopC_small {fuel : Nat} {heap : List Node} (h : heap.length ≤ 1) :
    mergeLoopC (fuel + 1) heap = some heap := by
  have e : mergeLoopC (fuel + 1) heap
      = if heap.length ≤ 1 then some heap
        else
          match extractMin heap with
          | none => some heap
          | some (left, h1) =>
            match extractMin h1 with
            | none => some heap
            | some (right, h2) =>
              if left.count + right.count < U128 then
                mergeLoopC fuel
                  (h2 ++ [Node.mk (left.count + right.count) none (some left)
                    (some right)])
              else none := rfl
  rw [e, if_pos h]

lemma mergeLoopW_step {fuel : Nat} {heap : List Node} (hlen : ¬heap.length ≤ 1)
    {left : Node} {h1 : List Node} (hL : extractMin heap = some (left, h1))
    {right : Node} {h2 : List Node} (hR : extractMin h1 = some (right, h2)) :
    mergeLoopW (fuel + 1) heap
      = mergeLoopW fuel
          (h2 ++ [Node.mk ((left.count + right.count) % U128) none (some left)
            (some right)]) := by
  have e : mergeLoopW (fuel + 1) heap
      = if heap.length ≤ 1 then heap
        else
          match extractMin heap with
          | none => heap
          | some (left, h1) =>
            match extractMin h1 with
            | none => heap
            | some (right, h2) =>
              mergeLoopW fuel
                (h2 ++ [Node.mk ((left.count + right.count) % U128) none (some left)
                  (some right)]) := rfl
  rw [e, if_neg hlen, hL]
  show (match extractMin h1 with
    | none => heap
    | some (right, h2) =>
      mergeLoopW fuel
        (h2 ++ [Node.mk ((left.count + right.count) % U128) none (some left)
          (some right)])) = _
  rw [hR]

lemma mergeLoopC_step {fuel : Nat} {heap : List Node} (hlen : ¬heap.length ≤ 1)
    {left : Node} {h1 : List Node} (hL : extractMin heap = some (left, h1))
    {right : Node} {h2 : List Node} (hR : extractMin h1 = some (right, h2)) :
    mergeLoopC (fuel + 1) heap
      = if left.count + right.count < U128 then
          mergeLoopC fuel
            (h2 ++ [Node.mk (left.count + right.count) none (some left)
              (some right)])
        else none := by
  have e : mergeLoopC (fuel + 1) heap
      = if heap.length ≤ 1 then some heap
        else
          match extractMin heap with
          | none => some heap
          | some (left, h1) =>
            match extractMin h1 with
            | none => some heap
            | some (right, h2) =>
              if left.count + right.count < U128 then
                mergeLoopC fuel
                  (h2 ++ [Node.mk (left.count + right.count) none (some left)
                    (some right)])
              else none := rfl
  rw [e, if_neg hlen, hL]
  show (match extractMin h1 with
    | none => some heap
    | some (right, h2) =>
      if left.count + right.count < U128 then
        mergeLoopC fuel
          (h2 ++ [Node.mk (left.count + right.count) none (some left)
            (some right)])
      else none) = _
  rw [hR]

/-- Popping the two minima splits the heap's total count. -/
lemma heap_sum_merge {heap : List Node} {left right : Node} {h1 h2 : List Node}
    (hL : extractMin heap = some (left, h1)) (hR : extractMin h1 = some (right, h2)) :
    (heap.map Node.count).sum
      = left.count + right.count + (h2.map Node.count).sum := by
  have hp3 : heap.Perm (left :: right :: h2) :=
    (extractMin_perm hL).trans ((extractMin_perm hR).cons left)
  rw [(hp3.map Node.count).sum_eq]
  simp only [List.map_cons, List.sum_cons]
  omega

lemma merged_sum_eq {left right : Node} (h2 : List Node) :
    ((h2 ++ [Node.mk (left.count + right.count) none (some left)
        (some right)]).map Node.count).sum
      = (h2.map Node.count).sum + (left.count + right.count) := by
  rw [List.map_append, List.sum_append]
  simp [Node.count]

/-- While the heap's total count fits in `u128`, the wrapping merge loop
agrees with the unbounded one: no merge addition ever wraps. -/
lemma mergeLoopW_eq : ∀ (fuel : Nat) (heap : List Node),
    (heap.map Node.count).sum < U128 →
    mergeLoopW fuel heap = mergeLoop fuel heap := by
  intro fuel
  induction fuel with
  | zero => intro heap _; rfl
  | succ fuel ih =>
    intro heap hsum
    by_cases hsmall : heap.length ≤ 1
    · rw [mergeLoopW_small hsmall, mergeLoop_small hsmall]
    · have hne : heap ≠ [] := by
        intro hc
        rw [hc] at hsmall
        simp at hsmall
      obtain ⟨left, h1, hL⟩ := extractMin_isSome hne
      have hlen1 : h1.length + 1 = heap.length := by
        have := (extractMin_perm hL).length_eq
        simp at this
        omega
      have hne1 : h1 ≠ [] := by
        intro hc
        rw [hc] at hlen1
        simp at hlen1
        omega
      obtain ⟨right, h2, hR⟩ := extractMin_isSome hne1
      have hsplit := heap_sum_merge hL hR
      have hmod : (left.count + right.count) % U128 = left.count + right.count :=
        Nat.mod_eq_of_lt (by omega)
      rw [mergeLoopW_step hsmall hL hR, mergeLoop_step hsmall hL hR, hmod]
      apply ih
      rw [merged_sum_eq]
      omega

/-- While the heap's total count fits in `u128`, the checked merge loop
succeeds and agrees with the unbounded one. -/
lemma mergeLoopC_eq : ∀ (fuel : Nat) (heap : List Node),
    (heap.map Node.count).sum < U128 →
    mergeLoopC fuel heap = some (mergeLoop fuel heap) := by
  intro fuel
  induction fuel with
  | zero => intro heap _; rfl
  | succ fuel ih =>
    intro heap hsum
    by_cases hsmall : heap.length ≤ 1
    · rw [mergeLoopC_small hsmall, mergeLoop_small hsmall]
    · have hne : heap ≠ [] := by
        intro hc
        rw [hc] at hsmall
        simp at hsmall
      obtain ⟨left, h1, hL⟩ := extractMin_isSome hne
      have hlen1 : h1.length + 1 = heap.length := by
        have := (extractMin_perm hL).length_eq
        simp at this
        omega
      have hne1 : h1 ≠ [] := by
        intro hc
        rw [hc] at hlen1
        simp at hlen1
        omega
      obtain ⟨right, h2, hR⟩ := extractMin_isSome hne1
      have hsplit := heap_sum_merge hL hR
      rw [mergeLoopC_step hsmall hL hR, if_pos (by omega),
        mergeLoop_step hsmall hL hR]
      apply ih
      rw [merged_sum_eq]
      omega

/-- If the table's total fits in `u128`, tree construction under wrapping
arithmetic coincides with the unbounded model. -/
lemma newW_eq_new {counts : List Nat} (hsum : counts.sum < U128) :
    HuffmanTree.newW counts = HuffmanTree.new counts := by
  have hs : ((counts.enum.map fun p => Node.mk p.2 (some p.1) none none).map
      Node.count).sum < U128 := by
    rw [initHeap_counts]
    exact hsum
  unfold HuffmanTree.newW HuffmanTree.new
  by_cases h : 1 < counts.length
  · rw [if_pos h, if_pos h, mergeLoopW_eq _ _ hs]
  · rw [if_neg h, if_neg h]

/-- If the table's total fits in `u128`, tree construction under checked
arithmetic coincides with the unbounded model. -/
lemma newC_eq_new {counts : List Nat} (hsum : counts.sum < U128) :
    HuffmanTree.newC counts = HuffmanTree.new counts := by
  have hs : ((counts.enum.map fun p => Node.mk p.2 (some p.1) none none).map
      Node.count).sum < U128 := by
    rw [initHeap_counts]
    exact hsum
  unfold HuffmanTree.newC HuffmanTree.new
  by_cases h : 1 < counts.length
  · rw [if_pos h, if_pos h, mergeLoopC_eq _ _ hs]
  · rw [if_neg h, if_neg h]

end RC

namespace RC

/-- C3 (counterexample to the unrestricted claim): under the program's
wrapping `u128` count arithmetic, the table
`[2^127, 2^127, 2^128 - 1, 2^128 - 1]` builds a tree (the first merge wraps
to count `0`) whose codeword lengths `(3, 3, 2, 1)` cost `6·2^128 - 3`,
strictly more than the Kraft-admissible fixed-length assignment
`[2, 2, 2, 2]` costing `6·2^128 - 4` — so the encoder is not optimal for the
given counts. -/
theorem huffman_optimal_wrapping_counterexample :
    ∃ t, HuffmanTree.newW [2 ^ 127, 2 ^ 127, 2 ^ 128 - 1, 2 ^ 128 - 1] = some t ∧
      ([2, 2, 2, 2] : List Nat).length
        = ([2 ^ 127, 2 ^ 127, 2 ^ 128 - 1, 2 ^ 128 - 1] : List Nat).length ∧
      kraftSum [2, 2, 2, 2] ≤ 1 ∧
      ((List.range 4).map (fun v =>
          [2 ^ 127, 2 ^ 127, 2 ^ 128 - 1, 2 ^ 128 - 1].getD v 0
            * ([2, 2, 2, 2].getD v 0))).sum
        < ((List.range 4).map (fun v =>
            [2 ^ 127, 2 ^ 127, 2 ^ 128 - 1, 2 ^ 128 - 1].getD v 0
              * (t.encoder.map.getD v BitVec.new).len)).sum := by
  have h : HuffmanTree.newW [2 ^ 127, 2 ^ 127, 2 ^ 128 - 1, 2 ^ 128 - 1]
      = some ((HuffmanTree.newW [2 ^ 127, 2 ^ 127, 2 ^ 128 - 1, 2 ^ 128 - 1]).getD
        ⟨0, Node.mk 0 none none none⟩) := rfl
  exact ⟨_, h, rfl, by norm_num [kraftSum], by decide⟩

/-- C3 (amended): for every frequency table `counts` with at least two
symbols whose total fits in `u128` — so that no merge addition overflows and
the wrapping model coincides with the program on every build — the codeword
lengths of the encoder built from the tree satisfy the Kraft inequality
`Σ 2^(-len) ≤ 1`, and the total cost `Σ counts[v] · len(codeword v)` is
minimal among all codeword-length assignments `ls` over the same symbols
whose lengths satisfy the Kraft inequality (every valid prefix code's lengths
do, so this is Huffman optimality).  Without the overflow proviso the claim
is false: see `huffman_optimal_wrapping_counterexample`. -/
theorem huffman_kraft_and_optimal_u128 {counts : List Nat} {t : HuffmanTree}
    (hsum : counts.sum < U128) (ht : HuffmanTree.newW counts = some t) :
    kraftSum (t.encoder.map.map BitVec.len) ≤ 1 ∧
    ∀ ls : List Nat, ls.length = counts.length → kraftSum ls ≤ 1 →
      ((List.range counts.length).map
        (fun v => counts.getD v 0 * (t.encoder.map.getD v BitVec.new).len)).sum
      ≤ ((List.range counts.length).map
        (fun v => counts.getD v 0 * ls.getD v 0)).sum := by
  rw [newW_eq_new hsum] at ht
  exact huffman_kraft_and_optimal ht

/-- Witness for the amended C3 at `counts = [1, 2, 4, 8]` (total `15 < 2^128`),
comparing against the fixed-length competitor `ls = [2, 2, 2, 2]`. -/
theorem huffman_kraft_and_optimal_u128_witness :
    kraftSum (((HuffmanTree.newW [1, 2, 4, 8]).getD
        ⟨0, Node.mk 0 none none none⟩).encoder.map.map BitVec.len) ≤ 1 ∧
    ((List.range 4).map (fun v => [1, 2, 4, 8].getD v 0 *
        (((HuffmanTree.newW [1, 2, 4, 8]).getD
          ⟨0, Node.mk 0 none none none⟩).encoder.map.getD v BitVec.new).len)).sum
      ≤ ((List.range 4).map
          (fun v => [1, 2, 4, 8].getD v 0 * [2, 2, 2, 2].getD v 0)).sum := by
  have h := @huffman_kraft_and_optimal_u128 [1, 2, 4, 8]
    ((HuffmanTree.newW [1, 2, 4, 8]).getD ⟨0, Node.mk 0 none none none⟩)
    (by decide) (by rfl)
  refine ⟨h.1, ?_⟩
  have hk : kraftSum [2, 2, 2, 2] ≤ 1 := by
    norm_num [kraftSum]
  exact h.2 [2, 2, 2, 2] (by rfl) hk

/-- C8 (counterexample to the unrestricted claim): under checked `u128`
arithmetic, `HuffmanTree::new [2^127, 2^127]` fails — the merge addition
`left.count + right.count` overflows and panics — even though the table has
two symbols, so construction failure is not equivalent to
`counts.len() < 2`. -/
theorem new_overflow_counterexample :
    2 ≤ ([2 ^ 127, 2 ^ 127] : List Nat).length ∧
    HuffmanTree.newC [2 ^ 127, 2 ^ 127] = none :=
  ⟨by decide, rfl⟩

/-- C8 (amended): under checked `u128` arithmetic, for every table whose
total fits in `u128` — so that the merge additions cannot overflow —
`HuffmanTree::new` fails at construction time exactly when
`counts.len() < 2`, and succeeds with a tree for every such table of at
least two symbols.  Without the overflow proviso the equivalence is false:
see `new_overflow_counterexample`. -/
theorem new_requires_two_symbols_u128 (counts : List Nat)
    (hsum : counts.sum < U128) :
    (HuffmanTree.newC counts = none ↔ counts.length < 2) ∧
    (2 ≤ counts.length → ∃ t, HuffmanTree.newC counts = some t) := by
  rw [newC_eq_new hsum]
  exact new_requires_two_symbols counts

/-- Witness for the amended C8 on the empty, singleton and two-symbol
tables, whose totals all fit in `u128`. -/
theorem new_requires_two_symbols_u128_witness :
    (HuffmanTree.newC ([] : List Nat) = none) ∧
    (HuffmanTree.newC [7] = none) ∧
    (∃ t, HuffmanTree.newC [0, 0] = some t) :=
  ⟨(new_requires_two_symbols_u128 [] (by decide)).1.mpr (by decide),
   (new_requires_two_symbols_u128 [7] (by decide)).1.mpr (by decide),
   (new_requires_two_symbols_u128 [0, 0] (by decide)).2 (by decide)⟩

end RC
